import Mathlib

/-!
Verification of the cryptogram substitution-cipher solver
(`sub_solver.py`).  Words and ciphertext are modelled as `List Char`,
Python dicts as insertion-ordered association lists (lookup finds the
first binding, overwrite keeps the key's position, fresh keys are
appended), and the recursive search as structural recursion over the
remaining word list.  Machine strings are ASCII here, matching the
corpus and ciphertext the program handles.
-/

/-- The apostrophe character (kept out of literals for hygiene). -/
def apoChar : Char := Char.ofNat 39

/-- Read from an insertion-ordered association list (Python dict read). -/
def alookup {α β : Type} [DecidableEq α] : List (α × β) → α → Option β
  | [], _ => none
  | p :: ps, k => if p.1 = k then some p.2 else alookup ps k

/-- Python dict write: overwrite in place when the key exists (keeping
its position), otherwise append at the end (insertion order). -/
def ainsert {α β : Type} [DecidableEq α] (l : List (α × β)) (k : α) (v : β) :
    List (α × β) :=
  if (alookup l k).isSome then
    l.map (fun p => if p.1 = k then (k, v) else p)
  else l ++ [(k, v)]

/-- `hash_word`, lines 9-23 of sub_solver.py: the loop body, carrying the
`seen` dict and the counter `i`; `out` is produced by emitting the digit
string of each character's rank as it is appended (joining at the end of
the Python loop concatenates the same strings in the same order). -/
def hashGo : List Char → List (Char × List Char) → Nat → List Char
  | [], _, _ => []
  | c :: cs, seen, i =>
    match alookup seen c with
    | some s => s ++ hashGo cs seen i
    | none => Nat.toDigits 10 i ++ hashGo cs (seen ++ [(c, Nat.toDigits 10 i)]) (i + 1)

/-- `hash_word(word)`: MXM becomes 010, ASDF becomes 0123, etc. -/
def hash_word (w : List Char) : List Char := hashGo w [] 0

/-- `Corpus._hash_dict`: pattern string → bucket of corpus words. -/
abbrev CorpusDict := List (List Char × List (List Char))

/-- One iteration of the `Corpus.__init__` loop (lines 37-42): append the
word to its pattern's bucket, creating the bucket if absent. -/
def addWord (d : CorpusDict) (w : List Char) : CorpusDict :=
  ainsert d (hash_word w) ((alookup d (hash_word w)).getD [] ++ [w])

/-- `Corpus.__init__` on an already-read word list. -/
def buildDict (ws : List (List Char)) : CorpusDict := ws.foldl addWord []

/-- `self._hash_dict.get(input_word_hash) or []` (line 57). -/
def bucketOf (d : CorpusDict) (h : List Char) : List (List Char) :=
  (alookup d h).getD []

/-- The per-position test of `Corpus.find_candidates` (lines 63-64):
position `i` invalidates word `c` against probe char `p` iff the
constraint applies and the characters differ. -/
def candBad (p c : Char) : Bool :=
  (p.isLower || p == apoChar || c == apoChar) && p != c

/-- The filter loop of `find_candidates` (lines 61-66), with Python's
IndexError on `input_word[i]` modelled by `Except.error`: the loop runs
over the indices of the corpus word `w`, so it reads past the probe's
end whenever `w` is longer than the probe. -/
def candScanE (probe : List Char) : Nat → List Char → Except Unit Bool
  | _, [] => .ok true
  | i, c :: rest =>
    match probe[i]? with
    | none => .error ()
    | some p => if candBad p c then .ok false else candScanE probe (i + 1) rest

/-- Total mirror of the same loop, used by the solver embedding; it reads
out-of-range probe positions as a blank.  The solver-level theorems are
stated under length hypotheses (or at concrete inputs) where every read
is in range, so the default is never exercised there; the `Except`
version above records where Python would instead raise. -/
def candOkT (probe : List Char) : Nat → List Char → Bool
  | _, [] => true
  | i, c :: rest =>
    if candBad (probe.getD i ' ') c then false else candOkT probe (i + 1) rest

/-- `Corpus.find_candidates` (lines 44-70): filter the probe's pattern
bucket, preserving bucket order. -/
def find_candidates (d : CorpusDict) (probe : List Char) : List (List Char) :=
  (bucketOf d (hash_word probe)).filter (fun w => candOkT probe 0 w)

/-- The candidate loop of `find_candidates` with the IndexError made
explicit: scanning words in bucket order, an error in any scan aborts
the whole call (the exception propagates). -/
def goCandsE (probe : List Char) : List (List Char) → Except Unit (List (List Char))
  | [] => .ok []
  | w :: ws => do
    let ok ← candScanE probe 0 w
    let rest ← goCandsE probe ws
    pure (if ok then w :: rest else rest)

/-- `Corpus.find_candidates`, exception-aware version. -/
def find_candidatesE (d : CorpusDict) (probe : List Char) :
    Except Unit (List (List Char)) :=
  goCandsE probe (bucketOf d (hash_word probe))

/-- A translation table (`current_translation`): ciphertext letter →
plaintext letter, as an insertion-ordered dict. -/
abbrev TransT := List (Char × Char)

/-- `str.translate` of a single character under the table built by
`_make_trans_from_dict`: mapped if present, unchanged otherwise. -/
def applyTr (tr : TransT) (c : Char) : Char := (alookup tr c).getD c

/-- `cipher_word.translate(trans)` (line 144). -/
def translateWord (tr : TransT) (w : List Char) : List Char := w.map (applyTr tr)

/-- `current_translation.values()` in insertion order; Python wraps them
in a set, which only membership tests observe. -/
def dvalues (tr : TransT) : List Char := tr.map Prod.snd

/-- The candidate-extension loop of `_recursive_solve` (lines 147-160):
`cur` is the caller's `current_translation` (read by both membership
tests), `acc` is `new_trans`; a conflict returns `none`
(`bad_translation`), otherwise the staged mapping is written.  Python
indexes `cipher_word[i]` for `i` below the candidate's length; the
solver theorems work where the two lengths agree, so the out-of-range
default is never read there. -/
def extendGo (cur : TransT) (w : List Char) : Nat → List Char → TransT → Option TransT
  | _, [], acc => some acc
  | i, pc :: rest, acc =>
    if (alookup cur (w.getD i ' ')).isNone && (dvalues cur).contains pc then none
    else extendGo cur w (i + 1) rest (ainsert acc (w.getD i ' ') pc)

/-- Build `new_trans` from one candidate, or report `bad_translation`. -/
def extendTrans (tr : TransT) (w c : List Char) : Option TransT :=
  extendGo tr w 0 c tr

/-- `SubSolver._recursive_solve` (lines 108-180): an empty remaining
list returns the current translation unconditionally (line 138); then
the tolerance guard; then each candidate in bucket order, and finally
the skip branch with the unknown-word count increased.  A recursive
result is propagated only when *truthy*: `if result:` (line 168) and
`if skip_word_solution:` (line 177) treat an empty dict exactly like
`None`, so the candidate loop moves on and the skip branch falls
through to `return None` — only nonempty translations escape a
non-leaf call. -/
def recursive_solve (d : CorpusDict) : List (List Char) → TransT → Nat → Nat → Option TransT
  | [], tr, _, _ => some tr
  | w :: ws, tr, k, t =>
    if k > t then none
    else
      match (find_candidates d (translateWord tr w)).findSome?
          (fun c =>
            match extendTrans tr w c with
            | none => none
            | some tr2 =>
              match recursive_solve d ws tr2 k t with
              | some r => if r.isEmpty then none else some r
              | none => none) with
      | some r => some r
      | none =>
        match recursive_solve d ws tr (k + 1) t with
        | some r => if r.isEmpty then none else some r
        | none => none

/-- The tolerance loop of `SubSolver.solve` (lines 101-106): try
`f t, f (t+1), ...` for `fuel` values; Python's `if solution:` breaks
only on a *truthy* dict, so `none` and the empty dict both continue. -/
def tolGo (f : Nat → Option TransT) : Nat → Nat → Option TransT
  | _, 0 => none
  | t, fuel + 1 =>
    match f t with
    | some dd => if dd.isEmpty then tolGo f (t + 1) fuel else some dd
    | none => tolGo f (t + 1) fuel

/-- `SubSolver.solve` after word extraction: the escalating-tolerance
loop over `range(0, max(3, len(words) // 10))`.  The result is the
translation stored into `self._translation` (`none` when the loop never
breaks, in which case the field keeps its initial empty value). -/
def solveWords (d : CorpusDict) (ws : List (List Char)) : Option TransT :=
  tolGo (fun t => recursive_solve d ws [] 0 t) 0 (max 3 (ws.length / 10))

/-- ASCII model of the regex class `\w`. -/
def isWordChar (c : Char) : Bool := c.isAlphanum || c == '_'

/-- `str.split()` after `re.sub(r'[^\w ]+', '', ...)`: only spaces remain
as separators, so split on spaces and drop empty chunks; `acc` holds the
current token reversed. -/
def splitGo : List Char → List Char → List (List Char)
  | [], acc => if acc.isEmpty then [] else [acc.reverse]
  | c :: cs, acc =>
    if c == ' ' then
      (if acc.isEmpty then splitGo cs [] else acc.reverse :: splitGo cs [])
    else splitGo cs (c :: acc)

/-- Word extraction of `SubSolver.solve` (lines 86 and 98): uppercase the
ciphertext, delete every character that is neither a word character nor
a space, and split on the surviving spaces. -/
def extract_words (s : List Char) : List (List Char) :=
  splitGo ((s.map Char.toUpper).filter (fun c => isWordChar c || c == ' ')) []

/-- Stable insertion for descending length (ties keep original order). -/
def insertLenDesc (w : List Char) : List (List Char) → List (List Char)
  | [] => [w]
  | x :: xs => if x.length ≤ w.length then w :: x :: xs else x :: insertLenDesc w xs

/-- `words.sort(key=lambda word: -len(word))` (line 99): Python's sort is
stable, modelled by a stable insertion sort. -/
def sortLenDesc (l : List (List Char)) : List (List Char) := l.foldr insertLenDesc []

/-- The full `SubSolver.solve` pipeline on a ciphertext. -/
def solve (d : CorpusDict) (ciphertext : List Char) : Option TransT :=
  solveWords d (sortLenDesc (extract_words ciphertext))

/-- `Corpus.__init__` (lines 29-42) with the file read made explicit: on
an IOError the handler prints and falls through, leaving `word_list`
empty, so construction proceeds with an empty corpus. -/
def corpusInit (r : Except Unit (List (List Char))) : CorpusDict :=
  buildDict (match r with | .ok l => l | .error _ => [])

/-- Injectivity of a translation table: no two bindings share a
plaintext letter unless they are bindings of the same ciphertext
letter. -/
def InjT (tr : TransT) : Prop := ∀ p ∈ tr, ∀ q ∈ tr, p.2 = q.2 → p.1 = q.1

deriving instance DecidableEq for Except

instance decInjT (tr : TransT) : Decidable (InjT tr) := by
  unfold InjT; infer_instance


/-- The keys of a dict are pairwise distinct (true of every Python dict;
`ainsert` preserves it). -/
def NodupKeys (tr : TransT) : Prop := (tr.map Prod.fst).Nodup

/-- Every plaintext value of the table is a lowercase letter or an
apostrophe (true when the corpus only contains such characters). -/
def ValsOk (tr : TransT) : Prop := ∀ p ∈ tr, p.2.isLower = true ∨ p.2 = apoChar

/-- The running well-formedness invariant of a translation table. -/
def OkT (tr : TransT) : Prop := NodupKeys tr ∧ InjT tr ∧ ValsOk tr

/-- A corpus word made of lowercase letters and apostrophes. -/
def corpusWordOk (u : List Char) : Prop := ∀ ch ∈ u, ch.isLower = true ∨ ch = apoChar

/-- A ciphertext word: no lowercase letters, no apostrophes (always true
of the words `solve` extracts, see `extract_words_chars`). -/
def cipherWordOk (u : List Char) : Prop := ∀ ch ∈ u, ch.isLower = false ∧ ch ≠ apoChar

instance decNodupKeys (tr : TransT) : Decidable (NodupKeys tr) := by
  unfold NodupKeys; infer_instance

instance decValsOk (tr : TransT) : Decidable (ValsOk tr) := by
  unfold ValsOk; infer_instance

instance decCorpusWordOk (u : List Char) : Decidable (corpusWordOk u) := by
  unfold corpusWordOk; infer_instance

instance decCipherWordOk (u : List Char) : Decidable (cipherWordOk u) := by
  unfold cipherWordOk; infer_instance

/-- One step of recording a character in first-occurrence order. -/
def ordStep (acc : List Char) (c : Char) : List Char :=
  if c ∈ acc then acc else acc ++ [c]

/-- First-occurrence order of the characters of a word: the keys of the
`seen` dict of `hash_word`, in insertion order. -/
def seenOrder (w : List Char) : List Char := w.foldl ordStep []

/-- Number of distinct characters of a word. -/
def distinctCount (w : List Char) : Nat := (seenOrder w).length

/-- Index of the first occurrence of a character in a list. -/
def idxIn : List Char → Char → Nat
  | [], _ => 0
  | a :: as, c => if a = c then 0 else idxIn as c + 1

/-- The rank `hash_word` assigns to a character of `w`: its position in
the first-occurrence order. -/
def firstRank (w : List Char) (c : Char) : Nat := idxIn (seenOrder w) c

/-- The `seen` dict of `hash_word` after the characters `l` have been
assigned ranks `i, i+1, ...` in order. -/
def mkSeen : List Char → Nat → List (Char × List Char)
  | [], _ => []
  | c :: cs, i => (c, Nat.toDigits 10 i) :: mkSeen cs (i + 1)

/-- A search state of `_recursive_solve`: remaining words, current
translation, words skipped so far, and the tolerance. -/
structure SState where
  ws : List (List Char)
  tr : TransT
  k : Nat
  t : Nat

/-- Over-approximation of the recursive calls issued by
`_recursive_solve` from a root state: every call actually reached during
the search is `Reaches`-related to the root (the relation also contains
branches the depth-first search would have pruned after its first
success, which only makes the universally quantified invariant below
stronger). -/
inductive Reaches (d : CorpusDict) : SState → SState → Prop
  | refl (s : SState) : Reaches d s s
  | cand {s : SState} {w : List Char} {ws : List (List Char)} {tr tr2 : TransT}
      {k t : Nat} {c : List Char} :
      Reaches d s ⟨w :: ws, tr, k, t⟩ → ¬ k > t →
      c ∈ find_candidates d (translateWord tr w) →
      extendTrans tr w c = some tr2 →
      Reaches d s ⟨ws, tr2, k, t⟩
  | skip {s : SState} {w : List Char} {ws : List (List Char)} {tr : TransT}
      {k t : Nat} :
      Reaches d s ⟨w :: ws, tr, k, t⟩ → ¬ k > t →
      Reaches d s ⟨ws, tr, k + 1, t⟩

/-- Heap of translation dicts, for the aliasing/mutation claim: Python
dict objects are entries of the store, a dict reference is an index. -/
abbrev Store := List TransT

/-- Dereference (a missing index reads as an empty dict; never exercised
by the solver, which only dereferences live indices). -/
def readSt (st : Store) (r : Nat) : TransT := st.getD r []

/-- `dict(current_translation)`: allocate a fresh object holding a copy.
Returns the new store and the new object's reference. -/
def allocSt (st : Store) (d : TransT) : Store × Nat := (st ++ [d], st.length)

/-- In-place update of the object at `r`. -/
def writeSt (st : Store) (r : Nat) (d : TransT) : Store := st.set r d

/-- The candidate-extension loop (lines 148-160) acting on the heap:
each iteration mutates the fresh dict at `nref` in place
(`new_trans[cipher_word[i]] = candidate[i]`); `cur` is the value of the
caller's `current_translation`, which the loop only reads. -/
def extendStGo (cur : TransT) (w : List Char) (nref : Nat) :
    Nat → List Char → Store → Store × Bool
  | _, [], st => (st, false)
  | i, pc :: rest, st =>
    if (alookup cur (w.getD i ' ')).isNone && (dvalues cur).contains pc then (st, true)
    else
      extendStGo cur w nref (i + 1) rest
        (writeSt st nref (ainsert (readSt st nref) (w.getD i ' ') pc))

/-- One iteration of the candidate loop of `_recursive_solve` (lines
146-169) on the heap: if an earlier iteration already returned a result
it is threaded through unchanged (modelling the loop's early `return`,
which leaves the store and result identical), otherwise the iteration
copies the caller's dict (`new_trans = dict(current_translation)`),
mutates the copy in place, and on a clean extension recurses through
`recur` on the copy's reference.  `if result:` (line 168) reads the
returned dict's truthiness: an empty dict is dropped like `None` and
the loop continues. -/
def candStepSt (w : List Char) (r : Nat) (recur : Store → Nat → Store × Option Nat) :
    Store × Option Nat → List Char → Store × Option Nat
  | (st1, some r1), _ => (st1, some r1)
  | (st1, none), c =>
    let cur := readSt st1 r
    let stn := allocSt st1 cur
    match extendStGo cur w stn.2 0 c stn.1 with
    | (st2, true) => (st2, none)
    | (st2, false) =>
      match recur st2 stn.2 with
      | (st3, some r3) =>
        if (readSt st3 r3).isEmpty then (st3, none) else (st3, some r3)
      | (st3, none) => (st3, none)

/-- `_recursive_solve` acting on the heap: the current translation is
passed as the reference `r`; each candidate branch allocates its own
copy and recurses on the copy's reference, the skip branch recurses on
`r` itself, and `if skip_word_solution:` (line 177) drops a falsy
(empty-dict) skip result, falling through to `return None`. -/
def recursive_solve_st (d : CorpusDict) :
    List (List Char) → Store → Nat → Nat → Nat → Store × Option Nat
  | [], st, r, _, _ => (st, some r)
  | w :: ws, st, r, k, t =>
    if k > t then (st, none)
    else
      match (find_candidates d (translateWord (readSt st r) w)).foldl
          (candStepSt w r (fun st2 nref => recursive_solve_st d ws st2 nref k t))
          (st, none) with
      | (st1, some r1) => (st1, some r1)
      | (st1, none) =>
        match recursive_solve_st d ws st1 r (k + 1) t with
        | (st3, some r3) =>
          if (readSt st3 r3).isEmpty then (st3, none) else (st3, some r3)
        | (st3, none) => (st3, none)

/-- Store evolution of one call: the heap only grows, and every object
that existed before the call is untouched. -/
def Preserves (st st2 : Store) : Prop :=
  st.length ≤ st2.length ∧ ∀ i < st.length, st2.getD i [] = st.getD i []

/-- Corpus of the C1 counterexample: the file contents are taken as-is,
mixed case included (the program never normalizes corpus case). -/
def corpusXY : CorpusDict := buildDict ["X".data, "y".data]

/-- Ten-word corpus with pairwise distinct patterns and no one-letter
word. -/
def corpus10 : CorpusDict :=
  buildDict ["aaa".data, "bb".data, "cde".data, "ffg".data, "hih".data, "jkk".data,
    "lmno".data, "ppqr".data, "stst".data, "uuvv".data]

/-- Ten corpus words encoded by the bijection letter → uppercase letter,
plus the out-of-corpus token `Z` (which sorts last and whose pattern
bucket is empty). -/
def cipher10a : List Char := "AAA BB CDE FFG HIH JKK LMNO PPQR STST UUVV Z".data

/-- The same ten encoded words with the out-of-corpus token `ZZZZZ`
(which sorts first; its pattern bucket is also empty). -/
def cipher10b : List Char := "ZZZZZ AAA BB CDE FFG HIH JKK LMNO PPQR STST UUVV".data

/-- Length-sorted word lists of the two ciphertexts above. -/
def ws10a : List (List Char) := sortLenDesc (extract_words cipher10a)

def ws10b : List (List Char) := sortLenDesc (extract_words cipher10b)

/-- The translation the tolerance-0 search over `ws10a` reaches when it
considers the final token `Z`: all ten real words are resolved. -/
def tr10a : TransT :=
  [('L', 'l'), ('M', 'm'), ('N', 'n'), ('O', 'o'), ('P', 'p'), ('Q', 'q'),
   ('R', 'r'), ('S', 's'), ('T', 't'), ('U', 'u'), ('V', 'v'), ('A', 'a'),
   ('C', 'c'), ('D', 'd'), ('E', 'e'), ('F', 'f'), ('G', 'g'), ('H', 'h'),
   ('I', 'i'), ('J', 'j'), ('K', 'k'), ('B', 'b')]

/-- Small corpus for witnesses. -/
def corpusCB : CorpusDict := buildDict ["cat".data, "bat".data]

/-- The ciphertext of the C6 counterexample: DON, apostrophe, T, space,
GO. -/
def cipherDont : List Char := ['D', 'O', 'N', apoChar, 'T', ' ', 'G', 'O']

/-! ### Association-list (Python dict) lemmas -/

theorem alookup_eq_some_mem {α β : Type} [DecidableEq α] {l : List (α × β)} {k : α}
    {v : β} (h : alookup l k = some v) : (k, v) ∈ l := by
  induction l with
  | nil => simp [alookup] at h
  | cons p ps ih =>
    rw [alookup] at h
    by_cases hp : p.1 = k
    · rw [if_pos hp] at h
      obtain ⟨a, b⟩ := p
      cases h
      simp_all
    · rw [if_neg hp] at h
      exact List.mem_cons_of_mem _ (ih h)

theorem alookup_isSome_of_mem {α β : Type} [DecidableEq α] {l : List (α × β)} {k : α}
    {v : β} (h : (k, v) ∈ l) : (alookup l k).isSome = true := by
  induction l with
  | nil => simp at h
  | cons p ps ih =>
    rw [alookup]
    by_cases hp : p.1 = k
    · rw [if_pos hp]; rfl
    · rw [if_neg hp]
      rcases List.mem_cons.1 h with h1 | h1
    

      · exact absurd (congrArg Prod.fst h1.symm) hp
      · exact ih h1

theorem alookup_of_mem_nodup {α β : Type} [DecidableEq α] {l : List (α × β)} {k : α}
    {v : β} (hn : (l.map Prod.fst).Nodup) (h : (k, v) ∈ l) : alookup l k = some v := by
  induction l with
  | nil => simp at h
  | cons p ps ih =>
    rw [alookup]
    rcases List.mem_cons.1 h with h1 | h1
    · rw [← h1]
      simp
    · by_cases hp : p.1 = k
      · exfalso
        rw [List.map_cons, List.nodup_cons] at hn
        exact hn.1 (hp ▸ (List.mem_map.2 ⟨(k, v), h1, rfl⟩))
      · rw [if_neg hp]
        rw [List.map_cons, List.nodup_cons] at hn
        exact ih hn.2 h1

theorem alookup_map_over_self {α β : Type} [DecidableEq α] {l : List (α × β)}
    {k : α} (v : β) (hs : (alookup l k).isSome = true) :
    alookup (l.map (fun p => if p.1 = k then (k, v) else p)) k = some v := by
  induction l with
  | nil => simp [alookup] at hs
  | cons p ps ih =>
    rw [List.map_cons]
    by_cases hp : p.1 = k
    · rw [if_pos hp, alookup, if_pos rfl]
    · rw [if_neg hp, alookup, if_neg hp]
      rw [alookup, if_neg hp] at hs
      exact ih hs

theorem alookup_map_over_ne {α β : Type} [DecidableEq α] {l : List (α × β)}
    {k k2 : α} (v : β) (h : k2 ≠ k) :
    alookup (l.map (fun p => if p.1 = k then (k, v) else p)) k2 = alookup l k2 := by
  induction l with
  | nil => rfl
  | cons p ps ih =>
    rw [List.map_cons]
    by_cases hp : p.1 = k
    · have h1 : ¬ ((k, v).1 = k2) := fun hh => h hh.symm
      have h2 : ¬ (p.1 = k2) := fun hh => h (hh.symm.trans hp)
      rw [if_pos hp, alookup, alookup, if_neg h1, if_neg h2]
      exact ih
    · rw [if_neg hp, alookup, alookup]
      by_cases hq : p.1 = k2
      · rw [if_pos hq, if_pos hq]
      · rw [if_neg hq, if_neg hq]
        exact ih

theorem alookup_app_single_self {α β : Type} [DecidableEq α] {l : List (α × β)}
    {k : α} (v : β) : alookup l k = none → alookup (l ++ [(k, v)]) k = some v := by
  induction l with
  | nil => intro _; rw [List.nil_append, alookup, if_pos rfl]
  | cons p ps ih =>
    intro hs
    rw [alookup] at hs
    by_cases hp : p.1 = k
    · rw [if_pos hp] at hs; cases hs
    · rw [if_neg hp] at hs
      rw [List.cons_append, alookup, if_neg hp]
      exact ih hs

theorem alookup_app_single_ne {α β : Type} [DecidableEq α] {l : List (α × β)}
    {k k2 : α} (v : β) (h : k2 ≠ k) : alookup (l ++ [(k, v)]) k2 = alookup l k2 := by
  induction l with
  | nil =>
    have h1 : ¬ ((k, v).1 = k2) := fun hh => h hh.symm
    rw [List.nil_append]
    simp only [alookup, if_neg h1]
  | cons p ps ih =>
    rw [List.cons_append, alookup, alookup]
    by_cases hq : p.1 = k2
    · rw [if_pos hq, if_pos hq]
    · rw [if_neg hq, if_neg hq]
      exact ih

theorem alookup_ainsert_self {α β : Type} [DecidableEq α] (l : List (α × β)) (k : α)
    (v : β) : alookup (ainsert l k v) k = some v := by
  rw [ainsert]
  by_cases hs : (alookup l k).isSome
  · rw [if_pos hs]
    exact alookup_map_over_self v hs
  · rw [if_neg hs]
    exact alookup_app_single_self v (Option.not_isSome_iff_eq_none.1 hs)

theorem alookup_ainsert_ne {α β : Type} [DecidableEq α] (l : List (α × β)) (k k2 : α)
    (v : β) (h : k2 ≠ k) : alookup (ainsert l k v) k2 = alookup l k2 := by
  rw [ainsert]
  by_cases hs : (alookup l k).isSome
  · rw [if_pos hs]
    exact alookup_map_over_ne v h
  · rw [if_neg hs]
    exact alookup_app_single_ne v h

theorem mem_ainsert {α β : Type} [DecidableEq α] {l : List (α × β)} {k : α} {v : β}
    {p : α × β} (h : p ∈ ainsert l k v) : p = (k, v) ∨ p ∈ l := by
  rw [ainsert] at h
  by_cases hs : (alookup l k).isSome
  · rw [if_pos hs] at h
    rcases List.mem_map.1 h with ⟨q, hq, hqe⟩
    by_cases hqk : q.1 = k
    · rw [if_pos hqk] at hqe
      exact Or.inl hqe.symm
    · rw [if_neg hqk] at hqe
      exact Or.inr (hqe ▸ hq)
  · rw [if_neg hs] at h
    rcases List.mem_append.1 h with h1 | h1
    · exact Or.inr h1
    · exact Or.inl (List.mem_singleton.1 h1)

theorem nodup_keys_ainsert {α β : Type} [DecidableEq α] {l : List (α × β)} {k : α}
    {v : β} (hn : (l.map Prod.fst).Nodup) :
    (((ainsert l k v).map Prod.fst)).Nodup := by
  rw [ainsert]
  by_cases hs : (alookup l k).isSome
  · rw [if_pos hs]
    have : (l.map (fun p => if p.1 = k then (k, v) else p)).map Prod.fst = l.map Prod.fst := by
      rw [List.map_map]
      apply List.map_congr_left
      intro p _
      by_cases hp : p.1 = k
      · simp [hp]
      · simp [hp]
    rw [this]
    exact hn
  · rw [if_neg hs]
    rw [List.map_append]
    rw [List.nodup_append]
    refine ⟨hn, List.nodup_singleton _, ?_⟩
    intro x hx
    simp only [List.map_cons, List.map_nil, List.mem_singleton]
    intro hk
    rcases List.mem_map.1 hx with ⟨q, hq, hqe⟩
    obtain ⟨a, b⟩ := q
    simp only at hqe
    have hab : (k, b) ∈ l := by
      rw [← hk, ← hqe]
      exact hq
    exact hs (alookup_isSome_of_mem hab)

theorem mem_dvalues_of_alookup {tr : TransT} {x v : Char}
    (h : alookup tr x = some v) : v ∈ dvalues tr :=
  List.mem_map.2 ⟨(x, v), alookup_eq_some_mem h, rfl⟩

theorem injT_lookup {tr : TransT} (hi : InjT tr) {x y vx : Char}
    (hx : alookup tr x = some vx) (hy : alookup tr y = some vx) : x = y :=
  hi (x, vx) (alookup_eq_some_mem hx) (y, vx) (alookup_eq_some_mem hy) rfl

theorem contains_iff_memc {l : List Char} {c : Char} : l.contains c = true ↔ c ∈ l := by
  simp [List.contains]

/-! ### First-occurrence order and `hash_word` characterization -/

theorem idxIn_lt_of_mem {l : List Char} {c : Char} (h : c ∈ l) : idxIn l c < l.length := by
  induction l with
  | nil => simp at h
  | cons a as ih =>
    rw [idxIn]
    by_cases ha : a = c
    · rw [if_pos ha]
      simp
    · rw [if_neg ha]
      have : c ∈ as := by
        rcases List.mem_cons.1 h with h1 | h1
        · exact absurd h1.symm ha
        · exact h1
      simpa using ih this

theorem idxIn_append_of_mem {l : List Char} {c : Char} (e : List Char) (h : c ∈ l) :
    idxIn (l ++ e) c = idxIn l c := by
  induction l with
  | nil => simp at h
  | cons a as ih =>
    rw [List.cons_append, idxIn, idxIn]
    by_cases ha : a = c
    · rw [if_pos ha, if_pos ha]
    · have : c ∈ as := by
        rcases List.mem_cons.1 h with h1 | h1
        · exact absurd h1.symm ha
        · exact h1
      rw [if_neg ha, if_neg ha, ih this]

theorem idxIn_append_self {l : List Char} {c : Char} (h : c ∉ l) :
    idxIn (l ++ [c]) c = l.length := by
  induction l with
  | nil => simp [idxIn]
  | cons a as ih =>
    rw [List.cons_append, idxIn]
    have ha : ¬ (a = c) := fun hh => h (hh ▸ List.mem_cons_self a as)
    rw [if_neg ha]
    have : c ∉ as := fun hh => h (List.mem_cons_of_mem _ hh)
    rw [ih this]
    simp

theorem idxIn_inj {l : List Char} {a b : Char} (ha : a ∈ l) (hb : b ∈ l)
    (h : idxIn l a = idxIn l b) : a = b := by
  induction l with
  | nil => simp at ha
  | cons p ps ih =>
    rw [idxIn, idxIn] at h
    by_cases hpa : p = a
    · by_cases hpb : p = b
      · rw [← hpa, ← hpb]
      · rw [if_pos hpa, if_neg hpb] at h
        simp at h
    · by_cases hpb : p = b
      · rw [if_neg hpa, if_pos hpb] at h
        simp at h
      · rw [if_neg hpa, if_neg hpb] at h
        have ha2 : a ∈ ps := by
          rcases List.mem_cons.1 ha with h1 | h1
          · exact absurd h1.symm hpa
          · exact h1
        have hb2 : b ∈ ps := by
          rcases List.mem_cons.1 hb with h1 | h1
          · exact absurd h1.symm hpb
          · exact h1
        exact ih ha2 hb2 (Nat.add_right_cancel h)

theorem ord_mem : ∀ (cs acc : List Char) (x : Char),
    x ∈ cs.foldl ordStep acc ↔ x ∈ acc ∨ x ∈ cs := by
  intro cs
  induction cs with
  | nil => simp
  | cons c cs ih =>
    intro acc x
    rw [List.foldl_cons, ih]
    rw [ordStep]
    by_cases hc : c ∈ acc
    · rw [if_pos hc]
      constructor
      · rintro (h | h)
        · exact Or.inl h
        · exact Or.inr (List.mem_cons_of_mem _ h)
      · rintro (h | h)
        · exact Or.inl h
        · rcases List.mem_cons.1 h with h1 | h1
          · exact Or.inl (h1 ▸ hc)
          · exact Or.inr h1
    · rw [if_neg hc]
      constructor
      · rintro (h | h)
        · rcases List.mem_append.1 h with h1 | h1
          · exact Or.inl h1
          · exact Or.inr (List.mem_cons.2 (Or.inl (List.mem_singleton.1 h1)))
        · exact Or.inr (List.mem_cons_of_mem _ h)
      · rintro (h | h)
        · exact Or.inl (List.mem_append.2 (Or.inl h))
        · rcases List.mem_cons.1 h with h1 | h1
          · exact Or.inl (List.mem_append.2 (Or.inr (h1 ▸ List.mem_singleton_self x)))
          · exact Or.inr h1

theorem ord_append : ∀ (cs acc : List Char), ∃ e, cs.foldl ordStep acc = acc ++ e := by
  intro cs
  induction cs with
  | nil => exact fun acc => ⟨[], by simp⟩
  | cons c cs ih =>
    intro acc
    rw [List.foldl_cons, ordStep]
    by_cases hc : c ∈ acc
    · rw [if_pos hc]
      exact ih acc
    · rw [if_neg hc]
      rcases ih (acc ++ [c]) with ⟨e, he⟩
      exact ⟨[c] ++ e, by rw [he, List.append_assoc]⟩

theorem ord_nodup : ∀ (cs acc : List Char), acc.Nodup → (cs.foldl ordStep acc).Nodup := by
  intro cs
  induction cs with
  | nil => exact fun acc h => h
  | cons c cs ih =>
    intro acc h
    rw [List.foldl_cons, ordStep]
    by_cases hc : c ∈ acc
    · rw [if_pos hc]
      exact ih acc h
    · rw [if_neg hc]
      refine ih _ ?_
      rw [List.nodup_append]
      refine ⟨h, List.nodup_singleton _, ?_⟩
      intro x hx hxc
      exact hc ((List.mem_singleton.1 hxc) ▸ hx)

theorem alookup_mkSeen_mem : ∀ (acc : List Char) (i : Nat) (c : Char), c ∈ acc →
    alookup (mkSeen acc i) c = some (Nat.toDigits 10 (i + idxIn acc c)) := by
  intro acc
  induction acc with
  | nil => intro i c h; simp at h
  | cons a as ih =>
    intro i c h
    rw [mkSeen, alookup, idxIn]
    by_cases ha : a = c
    · subst ha
      simp
    · rw [if_neg ha, if_neg ha]
      have hmem : c ∈ as := by
        rcases List.mem_cons.1 h with h1 | h1
        · exact absurd h1.symm ha
        · exact h1
      rw [ih (i + 1) c hmem]
      have harith : i + 1 + idxIn as c = i + (idxIn as c + 1) := by omega
      rw [harith]

theorem alookup_mkSeen_not_mem : ∀ (acc : List Char) (i : Nat) (c : Char), c ∉ acc →
    alookup (mkSeen acc i) c = none := by
  intro acc
  induction acc with
  | nil => intro i c _; rfl
  | cons a as ih =>
    intro i c h
    rw [mkSeen, alookup]
    have ha : ¬ (a = c) := fun hh => h (hh ▸ List.mem_cons_self a as)
    rw [if_neg ha]
    exact ih (i + 1) c (fun hh => h (List.mem_cons_of_mem _ hh))

theorem mkSeen_append : ∀ (l : List Char) (c : Char) (i : Nat),
    mkSeen (l ++ [c]) i = mkSeen l i ++ [(c, Nat.toDigits 10 (i + l.length))] := by
  intro l
  induction l with
  | nil => intro c i; simp [mkSeen]
  | cons a as ih =>
    intro c i
    rw [List.cons_append, mkSeen, mkSeen, ih c (i + 1), List.cons_append]
    have harith : i + 1 + as.length = i + (a :: as).length := by simp; omega
    rw [harith]

theorem hashGo_spec : ∀ (cs acc : List Char),
    hashGo cs (mkSeen acc 0) acc.length =
      ((cs.map (fun c => Nat.toDigits 10 (idxIn (cs.foldl ordStep acc) c))).flatten) := by
  intro cs
  induction cs with
  | nil => intro acc; rfl
  | cons c cs ih =>
    intro acc
    rw [List.foldl_cons, List.map_cons, List.flatten_cons, hashGo, ordStep]
    by_cases hc : c ∈ acc
    · rw [alookup_mkSeen_mem acc 0 c hc, if_pos hc]
      rw [ih acc]
      rcases ord_append cs acc with ⟨e, he⟩
      rw [he, idxIn_append_of_mem e hc]
      rw [Nat.zero_add]
    · rw [alookup_mkSeen_not_mem acc 0 c hc, if_neg hc]
      have hlen : acc.length + 1 = (acc ++ [c]).length := by simp
      have hms := mkSeen_append acc c 0
      rw [Nat.zero_add] at hms
      rw [← hms, hlen, ih (acc ++ [c])]
      rcases ord_append cs (acc ++ [c]) with ⟨e, he⟩
      have hmem : c ∈ acc ++ [c] := List.mem_append.2 (Or.inr (List.mem_singleton_self c))
      rw [he, idxIn_append_of_mem e hmem, idxIn_append_self hc]

/-- `hash_word` emits, for each character of the word, the decimal
digits of its first-occurrence rank. -/
theorem hash_word_spec (w : List Char) :
    hash_word w = (w.map (fun c => Nat.toDigits 10 (firstRank w c))).flatten := by
  have h := hashGo_spec w []
  simpa [hash_word, mkSeen, seenOrder, firstRank] using h

theorem toDigits10_lt (n : Nat) (h : n < 10) : Nat.toDigits 10 n = [Nat.digitChar n] := by
  interval_cases n <;> rfl

theorem digitChar_inj10 : ∀ m < 10, ∀ n < 10, Nat.digitChar m = Nat.digitChar n → m = n := by
  decide

theorem mem_seenOrder {w : List Char} {c : Char} : c ∈ seenOrder w ↔ c ∈ w := by
  rw [seenOrder, ord_mem]
  simp

theorem seenOrder_nodup (w : List Char) : (seenOrder w).Nodup :=
  ord_nodup w [] List.nodup_nil

theorem rank_lt_distinct {w : List Char} {c : Char} (h : c ∈ w) :
    firstRank w c < distinctCount w :=
  idxIn_lt_of_mem (mem_seenOrder.2 h)

theorem rank_inj {w : List Char} {a b : Char} (ha : a ∈ w) (hb : b ∈ w)
    (h : firstRank w a = firstRank w b) : a = b :=
  idxIn_inj (mem_seenOrder.2 ha) (mem_seenOrder.2 hb) h

theorem flatten_singletons {α β : Type} (f : α → β) :
    ∀ l : List α, (l.map (fun x => [f x])).flatten = l.map f := by
  intro l
  induction l with
  | nil => rfl
  | cons a as ih => simp [ih]

theorem hash_map10 {w : List Char} (h : distinctCount w ≤ 10) :
    hash_word w = w.map (fun c => Nat.digitChar (firstRank w c)) := by
  rw [hash_word_spec]
  have : w.map (fun c => Nat.toDigits 10 (firstRank w c)) =
      w.map (fun c => [Nat.digitChar (firstRank w c)]) := by
    apply List.map_congr_left
    intro c hc
    exact toDigits10_lt _ (Nat.lt_of_lt_of_le (rank_lt_distinct hc) h)
  rw [this, flatten_singletons]

theorem hash_length10 {w : List Char} (h : distinctCount w ≤ 10) :
    (hash_word w).length = w.length := by
  rw [hash_map10 h, List.length_map]

theorem getD_map (f : Char → Char) : ∀ (l : List Char) (i : Nat), i < l.length →
    (l.map f).getD i ' ' = f (l.getD i ' ') := by
  intro l
  induction l with
  | nil => intro i h; simp at h
  | cons a as ih =>
    intro i h
    cases i with
    | zero => rfl
    | succ j =>
      rw [List.map_cons]
      show (as.map f).getD j ' ' = f (as.getD j ' ')
      exact ih j (by simpa using Nat.lt_of_succ_lt_succ h)

theorem getD_mem {l : List Char} {i : Nat} (h : i < l.length) : l.getD i ' ' ∈ l := by
  induction l generalizing i with
  | nil => simp at h
  | cons a as ih =>
    cases i with
    | zero => exact List.mem_cons_self a as
    | succ j =>
      show as.getD j ' ' ∈ a :: as
      exact List.mem_cons_of_mem _ (ih (Nat.lt_of_succ_lt_succ h))

theorem hash_getD10 {w : List Char} (h : distinctCount w ≤ 10) {i : Nat}
    (hi : i < w.length) :
    (hash_word w).getD i ' ' = Nat.digitChar (firstRank w (w.getD i ' ')) := by
  rw [hash_map10 h]
  exact getD_map _ w i hi

theorem distinctCount_eq_card (w : List Char) : distinctCount w = w.toFinset.card := by
  rw [distinctCount]
  have h1 : (seenOrder w).toFinset = w.toFinset := by
    apply Finset.ext
    intro a
    rw [List.mem_toFinset, List.mem_toFinset, mem_seenOrder]
  rw [← h1, List.toFinset_card_of_nodup (seenOrder_nodup w)]

theorem distinct_map_le (f : Char → Char) (w : List Char) :
    distinctCount (w.map f) ≤ distinctCount w := by
  rw [distinctCount_eq_card, distinctCount_eq_card]
  have h1 : (w.map f).toFinset = w.toFinset.image f := by
    apply Finset.ext
    intro a
    simp
  rw [h1]
  exact Finset.card_image_le

theorem hash_char_iff {u v : List Char} (hu : distinctCount u ≤ 10)
    (hv : distinctCount v ≤ 10) (h : hash_word u = hash_word v) :
    u.length = v.length ∧ ∀ i j, i < u.length → j < u.length →
      (u.getD i ' ' = u.getD j ' ' ↔ v.getD i ' ' = v.getD j ' ') := by
  have hlen : u.length = v.length := by
    rw [← hash_length10 hu, ← hash_length10 hv, h]
  refine ⟨hlen, ?_⟩
  intro i j hi hj
  have hiv : i < v.length := hlen ▸ hi
  have hjv : j < v.length := hlen ▸ hj
  have chain : ∀ (x : List Char), distinctCount x ≤ 10 → ∀ i j, i < x.length →
      j < x.length → (x.getD i ' ' = x.getD j ' ' ↔
        (hash_word x).getD i ' ' = (hash_word x).getD j ' ') := by
    intro x hx i j hxi hxj
    rw [hash_getD10 hx hxi, hash_getD10 hx hxj]
    constructor
    · intro he
      rw [he]
    · intro he
      have hr := digitChar_inj10 _
        (Nat.lt_of_lt_of_le (rank_lt_distinct (getD_mem hxi)) hx) _
        (Nat.lt_of_lt_of_le (rank_lt_distinct (getD_mem hxj)) hx) he
      exact rank_inj (getD_mem hxi) (getD_mem hxj) hr
  rw [chain u hu i j hi hj, chain v hv i j hiv hjv, h]

/-! ### Corpus dictionary and candidate-filter lemmas -/

theorem mem_bucket_addWord {d : CorpusDict} {w x : List Char} {h : List Char}
    (hm : x ∈ bucketOf (addWord d w) h) :
    x ∈ bucketOf d h ∨ (x = w ∧ h = hash_word w) := by
  rw [addWord] at hm
  by_cases hh : h = hash_word w
  · rw [bucketOf, hh, alookup_ainsert_self] at hm
    rw [Option.getD_some] at hm
    rcases List.mem_append.1 hm with h1 | h1
    · left
      rw [bucketOf, hh]
      exact h1
    · exact Or.inr ⟨List.mem_singleton.1 h1, hh⟩
  · rw [bucketOf, alookup_ainsert_ne _ _ _ _ hh] at hm
    exact Or.inl hm

theorem bucket_wf_addWord {d : CorpusDict} {w : List Char}
    (hd : ∀ h x, x ∈ bucketOf d h → hash_word x = h) :
    ∀ h x, x ∈ bucketOf (addWord d w) h → hash_word x = h := by
  intro h x hm
  rcases mem_bucket_addWord hm with h1 | ⟨h1, h2⟩
  · exact hd h x h1
  · rw [h1, h2]

theorem mem_bucket_foldl : ∀ (L : List (List Char)) (d : CorpusDict) (h x : List Char),
    x ∈ bucketOf (L.foldl addWord d) h → x ∈ bucketOf d h ∨ x ∈ L := by
  intro L
  induction L with
  | nil => exact fun d h x hm => Or.inl hm
  | cons w L ih =>
    intro d h x hm
    rw [List.foldl_cons] at hm
    rcases ih (addWord d w) h x hm with h1 | h1
    · rcases mem_bucket_addWord h1 with h2 | ⟨h2, _⟩
      · exact Or.inl h2
      · exact Or.inr (h2 ▸ List.mem_cons_self w L)
    · exact Or.inr (List.mem_cons_of_mem _ h1)

theorem bucket_wf_foldl : ∀ (L : List (List Char)) (d : CorpusDict),
    (∀ h x, x ∈ bucketOf d h → hash_word x = h) →
    ∀ h x, x ∈ bucketOf (L.foldl addWord d) h → hash_word x = h := by
  intro L
  induction L with
  | nil => exact fun d hd => hd
  | cons w L ih =>
    intro d hd
    exact ih (addWord d w) (bucket_wf_addWord hd)

theorem mem_bucket_build {L : List (List Char)} {h x : List Char}
    (hm : x ∈ bucketOf (buildDict L) h) : x ∈ L ∧ hash_word x = h := by
  have h0 : ∀ h x, x ∈ bucketOf ([] : CorpusDict) h → hash_word x = h := by
    intro h x hx
    simp [bucketOf, alookup] at hx
  constructor
  · rcases mem_bucket_foldl L [] h x hm with h1 | h1
    · simp [bucketOf, alookup] at h1
    · exact h1
  · exact bucket_wf_foldl L [] h0 h x hm

theorem mem_find_candidates {d : CorpusDict} {probe c : List Char}
    (h : c ∈ find_candidates d probe) :
    c ∈ bucketOf d (hash_word probe) ∧ candOkT probe 0 c = true := by
  rw [find_candidates] at h
  exact ⟨(List.mem_filter.1 h).1, (List.mem_filter.1 h).2⟩

theorem candOkT_force : ∀ (c : List Char) (probe : List Char) (i : Nat),
    candOkT probe i c = true →
    ∀ j, j < c.length → candBad (probe.getD (i + j) ' ') (c.getD j ' ') = false := by
  intro c
  induction c with
  | nil => intro probe i _ j hj; simp at hj
  | cons pc rest ih =>
    intro probe i h j hj
    rw [candOkT] at h
    by_cases hb : candBad (probe.getD i ' ') pc = true
    · rw [if_pos hb] at h
      cases h
    · rw [if_neg hb] at h
      cases j with
      | zero =>
        simpa using Bool.eq_false_iff.2 hb
      | succ j2 =>
        have : i + (j2 + 1) = (i + 1) + j2 := by omega
        rw [this]
        exact ih probe (i + 1) h j2 (Nat.lt_of_succ_lt_succ hj)

theorem candBad_false_force {p q : Char}
    (h : candBad p q = false)
    (hc : p.isLower = true ∨ p = apoChar ∨ q = apoChar) : p = q := by
  rw [candBad] at h
  by_cases he : p = q
  · exact he
  · exfalso
    have hne : (p != q) = true := bne_iff_ne.2 he
    rw [hne, Bool.and_true] at h
    rcases hc with h1 | h1 | h1
    · rw [h1] at h
      simp at h
    · rw [h1] at h
      simp at h
    · rw [h1] at h
      simp at h

/-! ### Candidate-extension lemmas -/

theorem extendGo_checks {cur : TransT} {w : List Char} :
    ∀ (rest : List Char) (i : Nat) (acc res : TransT),
    extendGo cur w i rest acc = some res →
    ∀ j, j < rest.length → alookup cur (w.getD (i + j) ' ') = none →
      rest.getD j ' ' ∉ dvalues cur := by
  intro rest
  induction rest with
  | nil => intro i acc res _ j hj; simp at hj
  | cons pc rest ih =>
    intro i acc res h j hj
    rw [extendGo] at h
    by_cases hcond : ((alookup cur (w.getD i ' ')).isNone &&
        (dvalues cur).contains pc) = true
    · rw [if_pos hcond] at h
      cases h
    · rw [if_neg hcond] at h
      cases j with
      | zero =>
        intro hnone hmem
        apply hcond
        rw [Nat.add_zero] at hnone
        rw [hnone]
        simp only [Option.isNone_none, Bool.true_and]
        exact contains_iff_memc.2 hmem
      | succ j2 =>
        have harith : i + (j2 + 1) = (i + 1) + j2 := by omega
        rw [harith]
        exact ih (i + 1) _ res h j2 (Nat.lt_of_succ_lt_succ hj)

theorem extendGo_nodup {cur : TransT} {w : List Char} :
    ∀ (rest : List Char) (i : Nat) (acc res : TransT),
    extendGo cur w i rest acc = some res → NodupKeys acc → NodupKeys res := by
  intro rest
  induction rest with
  | nil =>
    intro i acc res h hn
    rw [extendGo] at h
    cases h
    exact hn
  | cons pc rest ih =>
    intro i acc res h hn
    rw [extendGo] at h
    by_cases hcond : ((alookup cur (w.getD i ' ')).isNone &&
        (dvalues cur).contains pc) = true
    · rw [if_pos hcond] at h
      cases h
    · rw [if_neg hcond] at h
      exact ih (i + 1) _ res h (nodup_keys_ainsert hn)

theorem extendGo_frame {cur : TransT} {w : List Char} :
    ∀ (rest : List Char) (i : Nat) (acc res : TransT),
    extendGo cur w i rest acc = some res →
    ∀ x, (∀ j, j < rest.length → w.getD (i + j) ' ' ≠ x) →
      alookup res x = alookup acc x := by
  intro rest
  induction rest with
  | nil =>
    intro i acc res h x _
    rw [extendGo] at h
    cases h
    rfl
  | cons pc rest ih =>
    intro i acc res h x hx
    rw [extendGo] at h
    by_cases hcond : ((alookup cur (w.getD i ' ')).isNone &&
        (dvalues cur).contains pc) = true
    · rw [if_pos hcond] at h
      cases h
    · rw [if_neg hcond] at h
      have hkey : w.getD i ' ' ≠ x := by
        have := hx 0 (by simp)
        rw [Nat.add_zero] at this
        exact this
      have h2 := ih (i + 1) _ res h x (by
        intro j hj
        have harith : (i + 1) + j = i + (j + 1) := by omega
        rw [harith]
        exact hx (j + 1) (by simp only [List.length_cons]; omega))
      rw [h2]
      exact alookup_ainsert_ne _ _ _ _ (fun hh => hkey hh.symm)

theorem extendGo_write {cur : TransT} {w : List Char} :
    ∀ (rest : List Char) (i : Nat) (acc res : TransT),
    extendGo cur w i rest acc = some res →
    (∀ j1 j2, j1 < rest.length → j2 < rest.length →
      w.getD (i + j1) ' ' = w.getD (i + j2) ' ' →
      rest.getD j1 ' ' = rest.getD j2 ' ') →
    ∀ j, j < rest.length → ∀ x, w.getD (i + j) ' ' = x →
      alookup res x = some (rest.getD j ' ') := by
  intro rest
  induction rest with
  | nil => intro i acc res _ _ j hj; simp at hj
  | cons pc rest ih =>
    intro i acc res h hcons j hj x hx
    rw [extendGo] at h
    by_cases hcond : ((alookup cur (w.getD i ' ')).isNone &&
        (dvalues cur).contains pc) = true
    · rw [if_pos hcond] at h
      cases h
    · rw [if_neg hcond] at h
      have hcons2 : ∀ j1 j2, j1 < rest.length → j2 < rest.length →
          w.getD ((i + 1) + j1) ' ' = w.getD ((i + 1) + j2) ' ' →
          rest.getD j1 ' ' = rest.getD j2 ' ' := by
        intro j1 j2 hj1 hj2 he
        have e1 : (i + 1) + j1 = i + (j1 + 1) := by omega
        have e2 : (i + 1) + j2 = i + (j2 + 1) := by omega
        rw [e1, e2] at he
        exact hcons (j1 + 1) (j2 + 1) (by simp only [List.length_cons]; omega)
          (by simp only [List.length_cons]; omega) he
      cases j with
      | zero =>
        rw [Nat.add_zero] at hx
        by_cases hlater : ∃ j2, j2 < rest.length ∧ w.getD ((i + 1) + j2) ' ' = x
        · rcases hlater with ⟨j2, hj2, hx2⟩
          have hw := ih (i + 1) _ res h hcons2 j2 hj2 x hx2
          have hval : rest.getD j2 ' ' = pc := by
            have e2 : (i + 1) + j2 = i + (j2 + 1) := by omega
            rw [e2] at hx2
            have := hcons (j2 + 1) 0 (by simp only [List.length_cons]; omega) (by simp)
              (by simpa using hx2.trans hx.symm)
            simpa using this
          rw [hw, hval]
          rfl
        · have hfr := extendGo_frame rest (i + 1) _ res h x (by
            intro j2 hj2 hne
            exact hlater ⟨j2, hj2, hne⟩)
          rw [hfr, ← hx, alookup_ainsert_self]
          rfl
      | succ j2 =>
        have harith : i + (j2 + 1) = (i + 1) + j2 := by omega
        rw [harith] at hx
        exact ih (i + 1) _ res h hcons2 j2 (Nat.lt_of_succ_lt_succ hj) x hx

theorem extendGo_mem {cur : TransT} {w : List Char} :
    ∀ (rest : List Char) (i : Nat) (acc res : TransT),
    extendGo cur w i rest acc = some res →
    ∀ p, p ∈ res → p ∈ acc ∨ ∃ j, j < rest.length ∧
      p = (w.getD (i + j) ' ', rest.getD j ' ') := by
  intro rest
  induction rest with
  | nil =>
    intro i acc res h p hp
    rw [extendGo] at h
    cases h
    exact Or.inl hp
  | cons pc rest ih =>
    intro i acc res h p hp
    rw [extendGo] at h
    by_cases hcond : ((alookup cur (w.getD i ' ')).isNone &&
        (dvalues cur).contains pc) = true
    · rw [if_pos hcond] at h
      cases h
    · rw [if_neg hcond] at h
      rcases ih (i + 1) _ res h p hp with h1 | ⟨j, hj, hpe⟩
      · rcases mem_ainsert h1 with h2 | h2
        · right
          exact ⟨0, by simp, by simpa using h2⟩
        · exact Or.inl h2
      · right
        refine ⟨j + 1, by simp only [List.length_cons]; omega, ?_⟩
        have harith : i + (j + 1) = (i + 1) + j := by omega
        rw [harith]
        exact hpe

theorem extend_ok {L : List (List Char)}
    (hL : ∀ u ∈ L, corpusWordOk u ∧ distinctCount u ≤ 10)
    {w c : List Char} (hw : cipherWordOk w) (hwd : distinctCount w ≤ 10)
    {tr tr2 : TransT} (ht : OkT tr)
    (hc : c ∈ find_candidates (buildDict L) (translateWord tr w))
    (he : extendTrans tr w c = some tr2) : OkT tr2 := by
  obtain ⟨hnd, hinj, hvals⟩ := ht
  obtain ⟨hcb, hcf⟩ := mem_find_candidates hc
  obtain ⟨hcL, hchash⟩ := mem_bucket_build hcb
  obtain ⟨hclow, hcd⟩ := hL c hcL
  rw [extendTrans] at he
  have hplen : (translateWord tr w).length = w.length := List.length_map _ _
  have hpd : distinctCount (translateWord tr w) ≤ 10 :=
    le_trans (distinct_map_le _ w) hwd
  obtain ⟨hlen, hiff⟩ := hash_char_iff hcd hpd hchash
  have hlenw : c.length = w.length := hlen.trans hplen
  have hprobe : ∀ j, j < w.length →
      (translateWord tr w).getD j ' ' = applyTr tr (w.getD j ' ') :=
    fun j hj => getD_map _ w j hj
  have happ_none : ∀ x, alookup tr x = none → applyTr tr x = x := by
    intro x h
    rw [applyTr, h]
    rfl
  have happ_some : ∀ x v, alookup tr x = some v → applyTr tr x = v := by
    intro x v h
    rw [applyTr, h]
    rfl
  have hchar : ∀ a b : Char, (a.isLower = false ∧ a ≠ apoChar) →
      (b.isLower = true ∨ b = apoChar) → a ≠ b := by
    intro a b ha hb heq
    rcases hb with h5 | h5
    · rw [heq, h5] at ha
      exact absurd ha.1 (by simp)
    · exact ha.2 (heq.trans h5)
  have hchk : ∀ j, j < c.length → alookup tr (w.getD j ' ') = none →
      c.getD j ' ' ∉ dvalues tr := by
    intro j hj hn
    have h0 := extendGo_checks c 0 tr tr2 he j hj
    rw [Nat.zero_add] at h0
    exact h0 hn
  have hcons : ∀ j1 j2, j1 < c.length → j2 < c.length →
      w.getD (0 + j1) ' ' = w.getD (0 + j2) ' ' → c.getD j1 ' ' = c.getD j2 ' ' := by
    intro j1 j2 hj1 hj2 hww
    rw [Nat.zero_add, Nat.zero_add] at hww
    have hp : (translateWord tr w).getD j1 ' ' = (translateWord tr w).getD j2 ' ' := by
      rw [hprobe j1 (hlenw ▸ hj1), hprobe j2 (hlenw ▸ hj2), hww]
    exact (hiff j1 j2 hj1 hj2).mpr hp
  have hwrite : ∀ j, j < c.length →
      alookup tr2 (w.getD j ' ') = some (c.getD j ' ') := by
    intro j hj
    have h0 := extendGo_write c 0 tr tr2 he hcons j hj (w.getD (0 + j) ' ') rfl
    rw [Nat.zero_add] at h0
    exact h0
  have hframe : ∀ x, (∀ j, j < c.length → w.getD j ' ' ≠ x) →
      alookup tr2 x = alookup tr x := by
    intro x hx
    exact extendGo_frame c 0 tr tr2 he x (fun j hj => by
      rw [Nat.zero_add]
      exact hx j hj)
  have hnd2 : NodupKeys tr2 := extendGo_nodup c 0 tr tr2 he hnd
  have hvals2 : ValsOk tr2 := by
    intro p hp
    rcases extendGo_mem c 0 tr tr2 he p hp with h1 | ⟨j, hj, hpe⟩
    · exact hvals p h1
    · rw [hpe]
      exact hclow _ (getD_mem hj)
  have hmix : ∀ x y vv, alookup tr2 x = some vv → alookup tr2 y = some vv →
      (∃ j, j < c.length ∧ w.getD j ' ' = x) →
      (¬ ∃ j, j < c.length ∧ w.getD j ' ' = y) → x = y := by
    intro x y vv hlx hly hx hy
    rcases hx with ⟨j1, hj1, hxe⟩
    have h1 := hwrite j1 hj1
    rw [hxe] at h1
    have e1 : vv = c.getD j1 ' ' := Option.some.inj (hlx.symm.trans h1)
    have hq2 : alookup tr2 y = alookup tr y := hframe y (fun j hj hne => hy ⟨j, hj, hne⟩)
    have hql : alookup tr y = some vv := hq2.symm.trans hly
    have hqv : vv ∈ dvalues tr := mem_dvalues_of_alookup hql
    cases h1x : alookup tr x with
    | none =>
      have hforbid := hchk j1 hj1 (by rw [hxe]; exact h1x)
      exact absurd (e1 ▸ hqv) hforbid
    | some vx =>
      have hforce := candOkT_force c (translateWord tr w) 0 hcf j1 hj1
      rw [Nat.zero_add] at hforce
      have hpj : (translateWord tr w).getD j1 ' ' = vx := by
        rw [hprobe j1 (hlenw ▸ hj1), hxe]
        exact happ_some x vx h1x
      have hvx := hvals (x, vx) (alookup_eq_some_mem h1x)
      have hfc : (translateWord tr w).getD j1 ' ' = c.getD j1 ' ' := by
        apply candBad_false_force hforce
        rw [hpj]
        rcases hvx with h5 | h5
        · exact Or.inl h5
        · exact Or.inr (Or.inl h5)
      have hvc : vx = c.getD j1 ' ' := hpj.symm.trans hfc
      have hpl : alookup tr x = some vv := by
        rw [h1x, hvc, ← e1]
      exact injT_lookup hinj hpl hql
  have hboth : ∀ x y vv, alookup tr2 x = some vv → alookup tr2 y = some vv →
      (∃ j, j < c.length ∧ w.getD j ' ' = x) →
      (∃ j, j < c.length ∧ w.getD j ' ' = y) → x = y := by
    intro x y vv hlx hly hx hy
    rcases hx with ⟨j1, hj1, hxe⟩
    rcases hy with ⟨j2, hj2, hye⟩
    have h1 := hwrite j1 hj1
    rw [hxe] at h1
    have h2 := hwrite j2 hj2
    rw [hye] at h2
    have e1 : vv = c.getD j1 ' ' := Option.some.inj (hlx.symm.trans h1)
    have e2 : vv = c.getD j2 ' ' := Option.some.inj (hly.symm.trans h2)
    have hceq : c.getD j1 ' ' = c.getD j2 ' ' := e1 ▸ e2
    have hpeq : (translateWord tr w).getD j1 ' ' = (translateWord tr w).getD j2 ' ' :=
      (hiff j1 j2 hj1 hj2).mp hceq
    rw [hprobe j1 (hlenw ▸ hj1), hprobe j2 (hlenw ▸ hj2), hxe, hye] at hpeq
    have hxw : x.isLower = false ∧ x ≠ apoChar := by
      rw [← hxe]
      exact hw _ (getD_mem (hlenw ▸ hj1))
    have hyw : y.isLower = false ∧ y ≠ apoChar := by
      rw [← hye]
      exact hw _ (getD_mem (hlenw ▸ hj2))
    cases h1x : alookup tr x with
    | none =>
      cases h1y : alookup tr y with
      | none =>
        rw [happ_none x h1x, happ_none y h1y] at hpeq
        exact hpeq
      | some vy =>
        rw [happ_none x h1x, happ_some y vy h1y] at hpeq
        have hvy := hvals (y, vy) (alookup_eq_some_mem h1y)
        exact absurd hpeq (hchar x vy hxw hvy)
    | some vx =>
      cases h1y : alookup tr y with
      | none =>
        rw [happ_some x vx h1x, happ_none y h1y] at hpeq
        have hvx := hvals (x, vx) (alookup_eq_some_mem h1x)
        exact absurd hpeq.symm (hchar y vx hyw hvx)
      | some vy =>
        rw [happ_some x vx h1x, happ_some y vy h1y] at hpeq
        exact injT_lookup hinj h1x (hpeq ▸ h1y)
  have hinj2 : InjT tr2 := by
    intro p hp q hq hpq
    have hlp : alookup tr2 p.1 = some p.2 := alookup_of_mem_nodup hnd2 hp
    have hlq : alookup tr2 q.1 = some q.2 := alookup_of_mem_nodup hnd2 hq
    rw [hpq] at hlp
    by_cases hx : ∃ j, j < c.length ∧ w.getD j ' ' = p.1
    · by_cases hy : ∃ j, j < c.length ∧ w.getD j ' ' = q.1
      · exact hboth p.1 q.1 q.2 hlp hlq hx hy
      · exact hmix p.1 q.1 q.2 hlp hlq hx hy
    · by_cases hy : ∃ j, j < c.length ∧ w.getD j ' ' = q.1
      · exact (hmix q.1 p.1 q.2 hlq hlp hy hx).symm
      · have hp2 := hframe p.1 (fun j hj hne => hx ⟨j, hj, hne⟩)
        have hq2 := hframe q.1 (fun j hj hne => hy ⟨j, hj, hne⟩)
        exact injT_lookup hinj (hp2.symm.trans hlp) (hq2.symm.trans hlq)
  exact ⟨hnd2, hinj2, hvals2⟩

/-! ### Search invariants -/

theorem findSome_exists {α β : Type} {f : α → Option β} :
    ∀ {l : List α} {r : β}, l.findSome? f = some r → ∃ a ∈ l, f a = some r := by
  intro l
  induction l with
  | nil => intro r h; simp [List.findSome?] at h
  | cons a as ih =>
    intro r h
    rw [List.findSome?_cons] at h
    cases hfa : f a with
    | none =>
      rw [hfa] at h
      rcases ih h with ⟨b, hb, hfb⟩
      exact ⟨b, List.mem_cons_of_mem _ hb, hfb⟩
    | some v =>
      rw [hfa] at h
      exact ⟨a, List.mem_cons_self a as, hfa.trans h⟩

theorem findSome_isSome {α β : Type} {f : α → Option β} :
    ∀ {l : List α} {a : α}, a ∈ l → (f a).isSome = true →
      (l.findSome? f).isSome = true := by
  intro l
  induction l with
  | nil => intro a ha; simp at ha
  | cons b bs ih =>
    intro a ha hfa
    rw [List.findSome?_cons]
    cases hfb : f b with
    | none =>
      show (List.findSome? f bs).isSome = true
      rcases List.mem_cons.1 ha with h1 | h1
      · subst h1
        rw [hfb] at hfa
        simp at hfa
      · exact ih h1 hfa
    | some v => rfl

theorem recSolve_ok {L : List (List Char)}
    (hL : ∀ u ∈ L, corpusWordOk u ∧ distinctCount u ≤ 10) :
    ∀ (ws : List (List Char)) (tr : TransT) (k t : Nat) (res : TransT),
    (∀ u ∈ ws, cipherWordOk u ∧ distinctCount u ≤ 10) → OkT tr →
    recursive_solve (buildDict L) ws tr k t = some res → OkT res := by
  intro ws
  induction ws with
  | nil =>
    intro tr k t res _ htr h
    rw [recursive_solve] at h
    cases h
    exact htr
  | cons w ws ih =>
    intro tr k t res hws htr h
    rw [recursive_solve] at h
    by_cases hkt : k > t
    · rw [if_pos hkt] at h
      cases h
    · rw [if_neg hkt] at h
      cases hfs : (find_candidates (buildDict L) (translateWord tr w)).findSome?
          (fun c =>
            match extendTrans tr w c with
            | none => none
            | some tr2 =>
              match recursive_solve (buildDict L) ws tr2 k t with
              | some r => if r.isEmpty then none else some r
              | none => none) with
      | some r =>
        rw [hfs] at h
        have hres : r = res := Option.some.inj h
        rcases findSome_exists hfs with ⟨c, hcm, hfc⟩
        cases hext : extendTrans tr w c with
        | none =>
          rw [hext] at hfc
          cases hfc
        | some tr2 =>
          rw [hext] at hfc
          have hfc2 : (match recursive_solve (buildDict L) ws tr2 k t with
              | some r => if r.isEmpty then none else some r
              | none => none) = some r := hfc
          cases hrec : recursive_solve (buildDict L) ws tr2 k t with
          | none =>
            rw [hrec] at hfc2
            cases hfc2
          | some r2 =>
            rw [hrec] at hfc2
            have hfc3 : (if r2.isEmpty then none else some r2) = some r := hfc2
            by_cases hemp : r2.isEmpty
            · rw [if_pos hemp] at hfc3
              cases hfc3
            · rw [if_neg hemp] at hfc3
              have hr2 : r2 = r := Option.some.inj hfc3
              have htr2 := extend_ok hL (hws w (List.mem_cons_self w ws)).1
                (hws w (List.mem_cons_self w ws)).2 htr hcm hext
              refine ih tr2 k t res (fun u hu => hws u (List.mem_cons_of_mem _ hu)) htr2 ?_
              rw [hrec, hr2, hres]
      | none =>
        rw [hfs] at h
        cases hrec : recursive_solve (buildDict L) ws tr (k + 1) t with
        | none =>
          rw [hrec] at h
          cases h
        | some r2 =>
          rw [hrec] at h
          have h3 : (if r2.isEmpty then none else some r2) = some res := h
          by_cases hemp : r2.isEmpty
          · rw [if_pos hemp] at h3
            cases h3
          · rw [if_neg hemp] at h3
            have hr2 : r2 = res := Option.some.inj h3
            refine ih tr (k + 1) t res (fun u hu => hws u (List.mem_cons_of_mem _ hu)) htr ?_
            rw [hrec, hr2]

theorem reaches_ok {L : List (List Char)}
    (hL : ∀ u ∈ L, corpusWordOk u ∧ distinctCount u ≤ 10) {s0 s1 : SState}
    (h : Reaches (buildDict L) s0 s1)
    (h0 : (∀ u ∈ s0.ws, cipherWordOk u ∧ distinctCount u ≤ 10) ∧ OkT s0.tr) :
    (∀ u ∈ s1.ws, cipherWordOk u ∧ distinctCount u ≤ 10) ∧ OkT s1.tr := by
  induction h with
  | refl => exact h0
  | cand hr hkt hcm hext ih =>
    obtain ⟨hws, htr⟩ := ih
    refine ⟨fun u hu => hws u (List.mem_cons_of_mem _ hu), ?_⟩
    exact extend_ok hL (hws _ (List.mem_cons_self _ _)).1
      (hws _ (List.mem_cons_self _ _)).2 htr hcm hext
  | skip hr hkt ih =>
    obtain ⟨hws, htr⟩ := ih
    exact ⟨fun u hu => hws u (List.mem_cons_of_mem _ hu), htr⟩

theorem tolGo_some_exists {f : Nat → Option TransT} :
    ∀ (fuel t0 : Nat) (dd : TransT), tolGo f t0 fuel = some dd → ∃ t, f t = some dd := by
  intro fuel
  induction fuel with
  | zero => intro t0 dd h; cases h
  | succ fuel ih =>
    intro t0 dd h
    rw [tolGo] at h
    split at h
    next d0 hf =>
      by_cases hde : d0.isEmpty
      · rw [if_pos hde] at h
        exact ih (t0 + 1) dd h
      · rw [if_neg hde] at h
        exact ⟨t0, hf.trans h⟩
    next hf =>
      exact ih (t0 + 1) dd h

/-! ### Word-extraction lemmas -/

theorem charLower_iff (c : Char) : c.isLower = true ↔ (97 ≤ c.toNat ∧ c.toNat ≤ 122) := by
  have hle : ∀ a b : UInt32, (a ≤ b) ↔ a.toNat ≤ b.toNat := fun a b => Iff.rfl
  simp only [Char.isLower, Bool.and_eq_true, decide_eq_true_eq]
  rw [ge_iff_le, hle, hle]
  constructor
  · rintro ⟨h1, h2⟩
    exact ⟨h1, h2⟩
  · rintro ⟨h1, h2⟩
    exact ⟨h1, h2⟩

theorem ofNat_toNat (m : Nat) (h : Nat.isValidChar m) : (Char.ofNat m).toNat = m := by
  rw [Char.ofNat, dif_pos h]
  rfl

theorem toUpper_not_lower (c : Char) : (c.toUpper).isLower = false := by
  rw [Char.toUpper]
  split
  · next h =>
    obtain ⟨h1, h2⟩ := h
    have hv : Nat.isValidChar (Char.toNat c - 32) := Or.inl (by omega)
    rw [Bool.eq_false_iff]
    intro hl
    rw [charLower_iff] at hl
    rw [ofNat_toNat _ hv] at hl
    omega
  · next h =>
    rw [Bool.eq_false_iff]
    intro hl
    rw [charLower_iff] at hl
    exact h ⟨hl.1, hl.2⟩

theorem splitGo_tokens {P : Char → Prop} :
    ∀ (l acc : List Char), (∀ ch ∈ l, ch = ' ' ∨ (P ch ∧ ch ≠ ' ')) →
    (∀ ch ∈ acc, P ch ∧ ch ≠ ' ') →
    ∀ w ∈ splitGo l acc, w ≠ [] ∧ ∀ ch ∈ w, P ch ∧ ch ≠ ' ' := by
  intro l
  induction l with
  | nil =>
    intro acc _ hacc w hw
    rw [splitGo] at hw
    by_cases he : acc.isEmpty
    · rw [if_pos he] at hw
      simp at hw
    · rw [if_neg he] at hw
      have hwa : w = acc.reverse := List.mem_singleton.1 hw
      subst hwa
      constructor
      · intro hc
        rw [List.reverse_eq_nil_iff] at hc
        rw [hc] at he
        exact he rfl
      · intro ch hch
        exact hacc ch (List.mem_reverse.1 hch)
  | cons c cs ih =>
    intro acc hl hacc w hw
    rw [splitGo] at hw
    have hhead := hl c (List.mem_cons_self c cs)
    have htail : ∀ ch ∈ cs, ch = ' ' ∨ (P ch ∧ ch ≠ ' ') :=
      fun ch hch => hl ch (List.mem_cons_of_mem _ hch)
    by_cases hsp : (c == ' ') = true
    · rw [if_pos hsp] at hw
      by_cases he : acc.isEmpty
      · rw [if_pos he] at hw
        exact ih [] htail (by simp) w hw
      · rw [if_neg he] at hw
        rcases List.mem_cons.1 hw with h1 | h1
        · subst h1
          constructor
          · intro hc
            rw [List.reverse_eq_nil_iff] at hc
            rw [hc] at he
            exact he rfl
          · intro ch hch
            exact hacc ch (List.mem_reverse.1 hch)
        · exact ih [] htail (by simp) w h1
    · rw [if_neg hsp] at hw
      have hcns : c ≠ ' ' := fun hh => hsp (beq_iff_eq.2 hh)
      have hcp : P c ∧ c ≠ ' ' := by
        rcases hhead with h1 | h1
        · exact absurd h1 hcns
        · exact h1
      refine ih (c :: acc) htail ?_ w hw
      intro ch hch
      rcases List.mem_cons.1 hch with h1 | h1
      · exact h1 ▸ hcp
      · exact hacc ch h1

theorem extract_words_tokens (s : List Char) :
    ∀ w ∈ extract_words s, w ≠ [] ∧
      ∀ ch ∈ w, (isWordChar ch = true ∧ ch.isLower = false) ∧ ch ≠ ' ' := by
  intro w hw
  rw [extract_words] at hw
  refine splitGo_tokens _ [] ?_ (by simp) w hw
  intro ch hch
  rcases List.mem_filter.1 hch with ⟨hmem, hkeep⟩
  rcases List.mem_map.1 hmem with ⟨a, _, hae⟩
  have hlow : ch.isLower = false := hae ▸ toUpper_not_lower a
  by_cases hsp : ch = ' '
  · exact Or.inl hsp
  · right
    refine ⟨⟨?_, hlow⟩, hsp⟩
    rcases (Bool.or_eq_true _ _ ▸ hkeep : isWordChar ch = true ∨ (ch == ' ') = true) with h1 | h1
    · exact h1
    · exact absurd (beq_iff_eq.1 h1) hsp

theorem isWordChar_not_apo : isWordChar apoChar = false := by decide

theorem extract_words_cipherOk (s : List Char) :
    ∀ w ∈ extract_words s, cipherWordOk w := by
  intro w hw ch hch
  have h := ((extract_words_tokens s w hw).2 ch hch).1
  refine ⟨h.2, ?_⟩
  intro hap
  rw [hap] at h
  rw [isWordChar_not_apo] at h
  exact absurd h.1 (by simp)

theorem mem_insertLenDesc {w x : List Char} :
    ∀ {l : List (List Char)}, w ∈ insertLenDesc x l ↔ w = x ∨ w ∈ l := by
  intro l
  induction l with
  | nil => simp [insertLenDesc]
  | cons a as ih =>
    rw [insertLenDesc]
    by_cases hc : a.length ≤ x.length
    · rw [if_pos hc]
      simp
    · rw [if_neg hc]
      rw [List.mem_cons, ih, List.mem_cons]
      tauto

theorem mem_sortLenDesc {w : List Char} :
    ∀ {l : List (List Char)}, w ∈ sortLenDesc l ↔ w ∈ l := by
  intro l
  induction l with
  | nil => simp [sortLenDesc]
  | cons a as ih =>
    show w ∈ insertLenDesc a (sortLenDesc as) ↔ _
    rw [mem_insertLenDesc, ih, List.mem_cons]

/-! ### Tolerance monotonicity -/

theorem recSolve_mono {d : CorpusDict} :
    ∀ (ws : List (List Char)) (tr : TransT) (k t t2 : Nat), t ≤ t2 →
    ∀ r, recursive_solve d ws tr k t = some r → r ≠ [] →
    ∃ r2, recursive_solve d ws tr k t2 = some r2 ∧ r2 ≠ [] := by
  intro ws
  induction ws with
  | nil =>
    intro tr k t t2 _ r h hne
    rw [recursive_solve] at h
    cases h
    rw [recursive_solve]
    exact ⟨tr, rfl, hne⟩
  | cons w ws ih =>
    intro tr k t t2 htt r h hne
    rw [recursive_solve] at h ⊢
    by_cases hkt : k > t
    · rw [if_pos hkt] at h
      cases h
    · have hkt2 : ¬ k > t2 := by omega
      rw [if_neg hkt] at h
      rw [if_neg hkt2]
      cases hfs2 : (find_candidates d (translateWord tr w)).findSome?
          (fun c =>
            match extendTrans tr w c with
            | none => none
            | some tr2 =>
              match recursive_solve d ws tr2 k t2 with
              | some r => if r.isEmpty then none else some r
              | none => none) with
      | some r2 =>
        have hr2ne : r2 ≠ [] := by
          rcases findSome_exists hfs2 with ⟨c, hcm, hfc⟩
          cases hext : extendTrans tr w c with
          | none =>
            rw [hext] at hfc
            cases hfc
          | some tr2 =>
            rw [hext] at hfc
            have hfc2 : (match recursive_solve d ws tr2 k t2 with
                | some r => if r.isEmpty then none else some r
                | none => none) = some r2 := hfc
            cases hrec : recursive_solve d ws tr2 k t2 with
            | none =>
              rw [hrec] at hfc2
              cases hfc2
            | some r3 =>
              rw [hrec] at hfc2
              have hfc3 : (if r3.isEmpty then none else some r3) = some r2 := hfc2
              by_cases hemp : r3.isEmpty
              · rw [if_pos hemp] at hfc3
                cases hfc3
              · rw [if_neg hemp] at hfc3
                have hr3 : r3 = r2 := Option.some.inj hfc3
                intro hh
                rw [hh] at hr3
                rw [hr3] at hemp
                exact hemp rfl
        exact ⟨r2, rfl, hr2ne⟩
      | none =>
        cases hfs : (find_candidates d (translateWord tr w)).findSome?
            (fun c =>
              match extendTrans tr w c with
              | none => none
              | some tr2 =>
                match recursive_solve d ws tr2 k t with
                | some r => if r.isEmpty then none else some r
                | none => none) with
        | some r0 =>
          exfalso
          rcases findSome_exists hfs with ⟨c, hcm, hfc⟩
          cases hext : extendTrans tr w c with
          | none =>
            rw [hext] at hfc
            cases hfc
          | some tr2 =>
            rw [hext] at hfc
            have hfc2 : (match recursive_solve d ws tr2 k t with
                | some r => if r.isEmpty then none else some r
                | none => none) = some r0 := hfc
            cases hrec : recursive_solve d ws tr2 k t with
            | none =>
              rw [hrec] at hfc2
              cases hfc2
            | some r3 =>
              rw [hrec] at hfc2
              have hfc3 : (if r3.isEmpty then none else some r3) = some r0 := hfc2
              by_cases hemp : r3.isEmpty
              · rw [if_pos hemp] at hfc3
                cases hfc3
              · rw [if_neg hemp] at hfc3
                have hr3ne : r3 ≠ [] := fun hh => hemp (by rw [hh]; rfl)
                rcases ih tr2 k t t2 htt r3 hrec hr3ne with ⟨r4, hrec4, hne4⟩
                have h3 := @findSome_isSome _ _
                  (fun c =>
                    match extendTrans tr w c with
                    | none => none
                    | some tr2 =>
                      match recursive_solve d ws tr2 k t2 with
                      | some r => if r.isEmpty then none else some r
                      | none => none) _ _ hcm
                  (by
                    show (match extendTrans tr w c with
                      | none => none
                      | some tr2 =>
                        match recursive_solve d ws tr2 k t2 with
                        | some r => if r.isEmpty then none else some r
                        | none => none).isSome = true
                    rw [hext]
                    show (match recursive_solve d ws tr2 k t2 with
                      | some r => if r.isEmpty then none else some r
                      | none => none).isSome = true
                    rw [hrec4]
                    show (if r4.isEmpty then none else some r4).isSome = true
                    rw [if_neg (fun hh => hne4 (List.isEmpty_iff.1 hh))]
                    rfl)
                rw [hfs2] at h3
                cases h3
        | none =>
          rw [hfs] at h
          cases hrec : recursive_solve d ws tr (k + 1) t with
          | none =>
            rw [hrec] at h
            cases h
          | some r3 =>
            rw [hrec] at h
            have h3 : (if r3.isEmpty then none else some r3) = some r := h
            by_cases hemp : r3.isEmpty
            · rw [if_pos hemp] at h3
              cases h3
            · rw [if_neg hemp] at h3
              have hr3 : r3 = r := Option.some.inj h3
              have hr3ne : r3 ≠ [] := hr3 ▸ hne
              rcases ih tr (k + 1) t t2 htt r3 hrec hr3ne with ⟨r4, hrec4, hne4⟩
              refine ⟨r4, ?_, hne4⟩
              rw [hrec4]
              show (if r4.isEmpty = true then none else some r4) = some r4
              rw [if_neg (fun hh => hne4 (List.isEmpty_iff.1 hh))]

theorem tolGo_iff {f : Nat → Option TransT} :
    ∀ (fuel t0 : Nat) (dd : TransT),
    tolGo f t0 fuel = some dd ↔
      ∃ j, j < fuel ∧ f (t0 + j) = some dd ∧ dd ≠ [] ∧
        ∀ j2, j2 < j → (f (t0 + j2) = none ∨ f (t0 + j2) = some []) := by
  intro fuel
  induction fuel with
  | zero =>
    intro t0 dd
    rw [tolGo]
    constructor
    · intro h
      cases h
    · rintro ⟨j, hj, _⟩
      omega
  | succ fuel ih =>
    intro t0 dd
    rw [tolGo]
    cases hf : f t0 with
    | none =>
      show tolGo f (t0 + 1) fuel = some dd ↔ _
      rw [ih (t0 + 1) dd]
      constructor
      · rintro ⟨j, hj, hfj, hne, hearly⟩
        refine ⟨j + 1, by omega, ?_, hne, ?_⟩
        · have he : t0 + (j + 1) = (t0 + 1) + j := by omega
          rw [he]
          exact hfj
        · intro j2 hj2
          cases j2 with
          | zero =>
            rw [Nat.add_zero]
            exact Or.inl hf
          | succ j3 =>
            have he : t0 + (j3 + 1) = (t0 + 1) + j3 := by omega
            rw [he]
            exact hearly j3 (by omega)
      · rintro ⟨j, hj, hfj, hne, hearly⟩
        cases j with
        | zero =>
          rw [Nat.add_zero, hf] at hfj
          cases hfj
        | succ j3 =>
          refine ⟨j3, by omega, ?_, hne, ?_⟩
          · have he : (t0 + 1) + j3 = t0 + (j3 + 1) := by omega
            rw [he]
            exact hfj
          · intro j2 hj2
            have he : (t0 + 1) + j2 = t0 + (j2 + 1) := by omega
            rw [he]
            exact hearly (j2 + 1) (by omega)
    | some d0 =>
      show (if d0.isEmpty then tolGo f (t0 + 1) fuel else some d0) = some dd ↔ _
      by_cases hde : d0.isEmpty
      · rw [if_pos hde]
        have hd0 : d0 = [] := List.isEmpty_iff.1 hde
        subst hd0
        rw [ih (t0 + 1) dd]
        constructor
        · rintro ⟨j, hj, hfj, hne, hearly⟩
          refine ⟨j + 1, by omega, ?_, hne, ?_⟩
          · have he : t0 + (j + 1) = (t0 + 1) + j := by omega
            rw [he]
            exact hfj
          · intro j2 hj2
            cases j2 with
            | zero =>
              rw [Nat.add_zero]
              exact Or.inr hf
            | succ j3 =>
              have he : t0 + (j3 + 1) = (t0 + 1) + j3 := by omega
              rw [he]
              exact hearly j3 (by omega)
        · rintro ⟨j, hj, hfj, hne, hearly⟩
          cases j with
          | zero =>
            rw [Nat.add_zero, hf] at hfj
            exact absurd (Option.some.inj hfj).symm hne
          | succ j3 =>
            refine ⟨j3, by omega, ?_, hne, ?_⟩
            · have he : (t0 + 1) + j3 = t0 + (j3 + 1) := by omega
              rw [he]
              exact hfj
            · intro j2 hj2
              have he : (t0 + 1) + j2 = t0 + (j2 + 1) := by omega
              rw [he]
              exact hearly (j2 + 1) (by omega)
      · rw [if_neg hde]
        have hd0 : d0 ≠ [] := fun hh => hde (by rw [hh]; rfl)
        constructor
        · intro h
          have hdd : d0 = dd := Option.some.inj h
          subst hdd
          refine ⟨0, by omega, ?_, hd0, ?_⟩
          · rw [Nat.add_zero]
            exact hf
          · intro j2 hj2
            omega
        · rintro ⟨j, hj, hfj, hne, hearly⟩
          cases j with
          | zero =>
            rw [Nat.add_zero, hf] at hfj
            exact hfj
          | succ j3 =>
            have h0 := hearly 0 (by omega)
            rw [Nat.add_zero, hf] at h0
            rcases h0 with h1 | h1
            · cases h1
            · exact absurd (Option.some.inj h1) hd0

/-! ### Exception-aware candidate scan vs the in-range scan -/

theorem candScanE_ok {probe : List Char} :
    ∀ (c : List Char) (i : Nat), i + c.length ≤ probe.length →
    candScanE probe i c = .ok (candOkT probe i c) := by
  intro c
  induction c with
  | nil =>
    intro i _
    rw [candScanE, candOkT]
  | cons q rest ih =>
    intro i hlen
    have hlt : i < probe.length := by
      simp only [List.length_cons] at hlen
      omega
    have hp : probe[i]? = some (probe.getD i ' ') := by
      rw [List.getElem?_eq_getElem hlt, List.getD_eq_getElem _ _ hlt]
    rw [candScanE, candOkT, hp]
    show (if candBad (probe.getD i ' ') q = true then Except.ok false
        else candScanE probe (i + 1) rest) =
      Except.ok (if candBad (probe.getD i ' ') q = true then false
        else candOkT probe (i + 1) rest)
    by_cases hb : candBad (probe.getD i ' ') q = true
    · rw [if_pos hb, if_pos hb]
    · rw [if_neg hb, if_neg hb]
      apply ih
      simp only [List.length_cons] at hlen
      omega

theorem goCandsE_ok {probe : List Char} :
    ∀ (bucket : List (List Char)), (∀ w ∈ bucket, w.length ≤ probe.length) →
    goCandsE probe bucket = .ok (bucket.filter (fun w => candOkT probe 0 w)) := by
  intro bucket
  induction bucket with
  | nil =>
    intro _
    rfl
  | cons w ws ih =>
    intro hlen
    rw [goCandsE]
    have h1 : candScanE probe 0 w = .ok (candOkT probe 0 w) := by
      apply candScanE_ok
      rw [Nat.zero_add]
      exact hlen w (List.mem_cons_self w ws)
    rw [h1, List.filter_cons]
    have h2 := ih (fun u hu => hlen u (List.mem_cons_of_mem _ hu))
    rw [h2]
    by_cases hok : candOkT probe 0 w = true
    · rw [hok]
      rfl
    · have hok2 : candOkT probe 0 w = false := Bool.eq_false_iff.2 hok
      rw [hok2]
      rfl

theorem find_candidatesE_ok {d : CorpusDict} {probe : List Char}
    (hlen : ∀ w ∈ bucketOf d (hash_word probe), w.length ≤ probe.length) :
    find_candidatesE d probe = .ok (find_candidates d probe) := by
  rw [find_candidatesE, find_candidates]
  exact goCandsE_ok _ hlen

theorem candBad_false_iff (a b : Char) : candBad a b = false ↔
    ((a.isLower = true ∨ a = apoChar ∨ b = apoChar) → a = b) := by
  rw [candBad]
  by_cases he : a = b
  · subst he
    simp
  · have hne : (a != b) = true := bne_iff_ne.2 he
    rw [hne, Bool.and_true]
    constructor
    · intro h hc
      exfalso
      rcases hc with h1 | h1 | h1
      · rw [h1] at h
        simp at h
      · rw [h1] at h
        simp at h
      · rw [h1] at h
        simp at h
    · intro h
      by_contra hb
      have hb2 : (a.isLower || a == apoChar || b == apoChar) = true :=
        Bool.not_eq_false _ ▸ hb
      rcases Bool.or_eq_true _ _ ▸ hb2 with h1 | h1
      · rcases Bool.or_eq_true _ _ ▸ h1 with h2 | h2
        · exact he (h (Or.inl h2))
        · exact he (h (Or.inr (Or.inl (beq_iff_eq.1 h2))))
      · exact he (h (Or.inr (Or.inr (beq_iff_eq.1 h1))))

theorem candOkT_iff_zip {probe : List Char} :
    ∀ (c : List Char) (i : Nat), i + c.length ≤ probe.length →
    (candOkT probe i c = true ↔ ∀ pc ∈ (probe.drop i).zip c,
      (pc.1.isLower = true ∨ pc.1 = apoChar ∨ pc.2 = apoChar) → pc.1 = pc.2) := by
  intro c
  induction c with
  | nil =>
    intro i _
    rw [candOkT]
    simp
  | cons q rest ih =>
    intro i hlen
    have hlt : i < probe.length := by
      simp only [List.length_cons] at hlen
      omega
    have hdrop : probe.drop i = probe.getD i ' ' :: probe.drop (i + 1) := by
      rw [List.getD_eq_getElem _ _ hlt]
      exact List.drop_eq_getElem_cons hlt
    rw [candOkT, hdrop, List.zip_cons_cons]
    by_cases hb : candBad (probe.getD i ' ') q = true
    · rw [if_pos hb]
      constructor
      · intro h
        cases h
      · intro h
        exfalso
        have hcond := (candBad_false_iff (probe.getD i ' ') q).2
          (h _ (List.mem_cons_self _ _))
        rw [hcond] at hb
        cases hb
    · rw [if_neg hb]
      have hrest := ih (i + 1) (by simp only [List.length_cons] at hlen; omega)
      rw [hrest]
      constructor
      · intro h pc hpc
        rcases List.mem_cons.1 hpc with h1 | h1
        · subst h1
          exact (candBad_false_iff _ _).1 (Bool.eq_false_iff.2 hb)
        · exact h pc h1
      · intro h pc hpc
        exact h pc (List.mem_cons_of_mem _ hpc)

/-! ### Heap frame property -/

theorem getD_append_lt : ∀ (l e : List TransT) (i : Nat), i < l.length →
    (l ++ e).getD i [] = l.getD i [] := by
  intro l
  induction l with
  | nil => intro e i h; simp at h
  | cons a as ih =>
    intro e i h
    cases i with
    | zero => rfl
    | succ j =>
      show (as ++ e).getD j [] = as.getD j []
      exact ih e j (Nat.lt_of_succ_lt_succ h)

theorem getD_set_ne : ∀ (l : List TransT) (n i : Nat) (v : TransT), i ≠ n →
    (l.set n v).getD i [] = l.getD i [] := by
  intro l
  induction l with
  | nil => intro n i v _; simp
  | cons a as ih =>
    intro n i v hne
    cases n with
    | zero =>
      cases i with
      | zero => exact absurd rfl hne
      | succ j => rfl
    | succ m =>
      cases i with
      | zero => rfl
      | succ j =>
        show (as.set m v).getD j [] = as.getD j []
        exact ih m j v (fun hh => hne (by rw [hh]))

theorem preserves_refl (st : Store) : Preserves st st :=
  ⟨le_refl _, fun _ _ => rfl⟩

theorem preserves_trans {a b c : Store} (h1 : Preserves a b) (h2 : Preserves b c) :
    Preserves a c := by
  refine ⟨le_trans h1.1 h2.1, ?_⟩
  intro i hi
  rw [h2.2 i (Nat.lt_of_lt_of_le hi h1.1), h1.2 i hi]

theorem preserves_alloc (st : Store) (d : TransT) : Preserves st (st ++ [d]) := by
  refine ⟨by simp, ?_⟩
  intro i hi
  exact getD_append_lt st [d] i hi

theorem extendStGo_len {cur : TransT} {w : List Char} {nref : Nat} :
    ∀ (rest : List Char) (i : Nat) (st : Store),
    (extendStGo cur w nref i rest st).1.length = st.length := by
  intro rest
  induction rest with
  | nil => intro i st; rfl
  | cons pc rest ih =>
    intro i st
    rw [extendStGo]
    by_cases hcond : ((alookup cur (w.getD i ' ')).isNone &&
        (dvalues cur).contains pc) = true
    · rw [if_pos hcond]
    · rw [if_neg hcond]
      rw [ih]
      simp [writeSt]

theorem extendStGo_frame {cur : TransT} {w : List Char} {nref : Nat} :
    ∀ (rest : List Char) (i : Nat) (st : Store) (j : Nat), j ≠ nref →
    (extendStGo cur w nref i rest st).1.getD j [] = st.getD j [] := by
  intro rest
  induction rest with
  | nil => intro i st j _; rfl
  | cons pc rest ih =>
    intro i st j hj
    rw [extendStGo]
    by_cases hcond : ((alookup cur (w.getD i ' ')).isNone &&
        (dvalues cur).contains pc) = true
    · rw [if_pos hcond]
    · rw [if_neg hcond]
      rw [ih _ _ j hj, writeSt, getD_set_ne _ _ _ _ hj]

theorem candStepSt_preserves {w : List Char} {r : Nat}
    {recur : Store → Nat → Store × Option Nat}
    (hrec : ∀ st n, Preserves st (recur st n).1) :
    ∀ (acc : Store × Option Nat) (c : List Char),
    Preserves acc.1 (candStepSt w r recur acc c).1 := by
  intro acc c
  obtain ⟨st1, o⟩ := acc
  cases o with
  | some r1 => exact preserves_refl st1
  | none =>
    rw [candStepSt]
    cases hext : extendStGo (readSt st1 r) w (allocSt st1 (readSt st1 r)).2 0 c
        (allocSt st1 (readSt st1 r)).1 with
    | mk st2 bad =>
      have hst2 : st2 = (extendStGo (readSt st1 r) w (allocSt st1 (readSt st1 r)).2 0 c
          (allocSt st1 (readSt st1 r)).1).1 := by
        rw [hext]
      have hp1 : Preserves st1 st2 := by
        constructor
        · rw [hst2, extendStGo_len]
          simp [allocSt]
        · intro i hi
          rw [hst2]
          rw [extendStGo_frame _ _ _ i (show i ≠ (allocSt st1 (readSt st1 r)).2 from by
            simp only [allocSt]
            omega)]
          exact getD_append_lt st1 _ i hi
      cases bad with
      | true => exact hp1
      | false =>
        show Preserves st1 (match recur st2 (allocSt st1 (readSt st1 r)).2 with
          | (st3, some r3) => if (readSt st3 r3).isEmpty = true
              then (st3, (none : Option Nat)) else (st3, some r3)
          | (st3, none) => (st3, none)).1
        have hrec2 : Preserves st2 (recur st2 (allocSt st1 (readSt st1 r)).2).1 :=
          hrec st2 _
        cases hr : recur st2 (allocSt st1 (readSt st1 r)).2 with
        | mk st3 o =>
          rw [hr] at hrec2
          cases o with
          | none => exact preserves_trans hp1 hrec2
          | some r3 =>
            show Preserves st1 (if (readSt st3 r3).isEmpty = true
              then (st3, (none : Option Nat)) else (st3, some r3)).1
            by_cases hemp : (readSt st3 r3).isEmpty
            · rw [if_pos hemp]
              exact preserves_trans hp1 hrec2
            · rw [if_neg hemp]
              exact preserves_trans hp1 hrec2

theorem recSolveSt_preserves (d : CorpusDict) :
    ∀ (ws : List (List Char)) (st : Store) (r k t : Nat),
    Preserves st (recursive_solve_st d ws st r k t).1 := by
  intro ws
  induction ws with
  | nil => intro st r k t; exact preserves_refl st
  | cons w ws ih =>
    intro st r k t
    rw [recursive_solve_st]
    by_cases hkt : k > t
    · rw [if_pos hkt]
      exact preserves_refl st
    · rw [if_neg hkt]
      have hstep := @candStepSt_preserves w r
        (fun st2 nref => recursive_solve_st d ws st2 nref k t)
        (fun st2 nref => ih st2 nref k t)
      have hfold : ∀ (cands : List (List Char)) (acc : Store × Option Nat),
          Preserves acc.1 ((cands.foldl (candStepSt w r
            (fun st2 nref => recursive_solve_st d ws st2 nref k t)) acc)).1 := by
        intro cands
        induction cands with
        | nil => intro acc; exact preserves_refl acc.1
        | cons c cs ihc =>
          intro acc
          rw [List.foldl_cons]
          exact preserves_trans (hstep acc c) (ihc _)
      cases hres : (find_candidates d (translateWord (readSt st r) w)).foldl
          (candStepSt w r (fun st2 nref => recursive_solve_st d ws st2 nref k t))
          (st, none) with
      | mk st1 o =>
        have hp1 : Preserves st st1 := by
          have := hfold (find_candidates d (translateWord (readSt st r) w)) (st, none)
          rw [hres] at this
          exact this
        cases o with
        | some r1 => exact hp1
        | none =>
          show Preserves st (match recursive_solve_st d ws st1 r (k + 1) t with
            | (st3, some r3) => if (readSt st3 r3).isEmpty = true
                then (st3, (none : Option Nat)) else (st3, some r3)
            | (st3, none) => (st3, none)).1
          have hskip : Preserves st1 (recursive_solve_st d ws st1 r (k + 1) t).1 :=
            ih st1 r (k + 1) t
          cases hsk : recursive_solve_st d ws st1 r (k + 1) t with
          | mk st3 o2 =>
            rw [hsk] at hskip
            cases o2 with
            | none => exact preserves_trans hp1 hskip
            | some r3 =>
              show Preserves st (if (readSt st3 r3).isEmpty = true
                then (st3, (none : Option Nat)) else (st3, some r3)).1
              by_cases hemp : (readSt st3 r3).isEmpty
              · rw [if_pos hemp]
                exact preserves_trans hp1 hskip
              · rw [if_neg hemp]
                exact preserves_trans hp1 hskip

theorem okT_nil : OkT [] := by
  refine ⟨?_, ?_, ?_⟩
  · show ((([] : TransT)).map Prod.fst).Nodup
    simp
  · intro p hp
    simp at hp
  · intro p hp
    simp at hp

/-! ### Claim theorems -/

/-- Claim C9: the pattern function maps each character of a word to its
first-occurrence rank among the distinct characters seen so far, left to
right; in particular `hash_word "MXM" = hash_word "WOW" = "010"`,
`hash_word "ASDF" = "0123"` and `hash_word "AFAFA" = "01010"`.  The
computation is a pure Lean function of the word, hence deterministic. -/
theorem claim_C9 :
    hash_word "MXM".data = "010".data ∧
    hash_word "WOW".data = "010".data ∧
    hash_word "ASDF".data = "0123".data ∧
    hash_word "AFAFA".data = "01010".data ∧
    ∀ w : List Char,
      hash_word w = (w.map (fun c => Nat.toDigits 10 (firstRank w c))).flatten :=
  ⟨by decide, by decide, by decide, by decide, hash_word_spec⟩

/-- Claim C8 (code bug): the claim says a missing or unreadable corpus
file surfaces an explicit error to the caller of corpus construction.
In the code the `except IOError` handler only prints and falls through
(lines 31-34), so construction proceeds with an empty word list: the
result of constructing from a failed read is identical to constructing
from an empty corpus file — an empty pattern dictionary, guaranteeing an
unsolved result, with no error visible to the caller. -/
theorem claim_C8 :
    corpusInit (Except.error ()) = corpusInit (Except.ok []) ∧
    corpusInit (Except.error ()) = [] :=
  ⟨rfl, rfl⟩

/-- Claim C4 (code bug): a ciphertext with no extractable tokens yields
the empty word list, and the recursive solver does return the empty
translation for it (a success per its own docstring, which reserves
`None` for failure); but `solve`'s `if solution:` test treats the empty
dict as falsy, so the loop never records it: after `solve`, the stored
translation is the falsy initial `{}` exactly as in the unsolved case,
which `print_report` reports as `Failed to translate ciphertext.` — the
caller cannot distinguish the trivial success from `Unsolved`. -/
theorem claim_C4 :
    extract_words ("!!! ...".data) = [] ∧
    (∀ (d : CorpusDict) (t : Nat), recursive_solve d [] [] 0 t = some []) ∧
    (∀ d : CorpusDict, solveWords d [] = none) ∧
    (∀ d : CorpusDict, solve d ("!!! ...".data) = none) := by
  have h2 : ∀ (d : CorpusDict) (t : Nat), recursive_solve d [] [] 0 t = some [] := by
    intro d t
    rw [recursive_solve]
  have h3 : ∀ d : CorpusDict, solveWords d [] = none := by
    intro d
    rfl
  refine ⟨by decide, h2, h3, ?_⟩
  intro d
  show solveWords d (sortLenDesc (extract_words ("!!! ...".data))) = none
  have he : sortLenDesc (extract_words ("!!! ...".data)) = [] := by decide
  rw [he]
  exact h3 d

/-- Claim C5 counterexample: the pattern of a word does not always
encode its length.  An 11-letter word with 11 distinct letters and a
12-letter word share the pattern string `012345678910`, because ranks
from 10 on take two digits. -/
theorem claim_C5_counterexample :
    hash_word "ABCDEFGHIJK".data = hash_word "ABCDEFGHIJBA".data ∧
    "ABCDEFGHIJK".data.length ≠ "ABCDEFGHIJBA".data.length :=
  ⟨by decide, by decide⟩

/-- Claim C5 as amended: for words with at most 10 distinct characters
(single-digit ranks) equal patterns do imply equal lengths, and under
that restriction on the corpus and the probe, `find_candidates` never
reads the probe out of range (the exception-aware model returns `ok`). -/
theorem claim_C5_amended :
    (∀ u v : List Char, distinctCount u ≤ 10 → distinctCount v ≤ 10 →
      hash_word u = hash_word v → u.length = v.length) ∧
    (∀ (L : List (List Char)) (probe : List Char),
      (∀ w ∈ L, distinctCount w ≤ 10) → distinctCount probe ≤ 10 →
      find_candidatesE (buildDict L) probe =
        .ok (find_candidates (buildDict L) probe)) := by
  have hlen : ∀ u v : List Char, distinctCount u ≤ 10 → distinctCount v ≤ 10 →
      hash_word u = hash_word v → u.length = v.length := by
    intro u v hu hv h
    rw [← hash_length10 hu, ← hash_length10 hv, h]
  refine ⟨hlen, ?_⟩
  intro L probe hL hp
  apply find_candidatesE_ok
  intro w hw
  obtain ⟨hwL, hwh⟩ := mem_bucket_build hw
  rw [hlen w probe (hL w hwL) hp hwh]

/-- Claim C5 witness: concrete instantiations of both conjuncts. -/
theorem claim_C5_witness :
    "MXM".data.length = "WOW".data.length ∧
    find_candidatesE (buildDict ["cat".data, "bat".data]) "cIF".data =
      .ok (find_candidates (buildDict ["cat".data, "bat".data]) "cIF".data) :=
  ⟨claim_C5_amended.1 "MXM".data "WOW".data (by decide) (by decide) (by decide),
   claim_C5_amended.2 ["cat".data, "bat".data] "cIF".data (by decide) (by decide)⟩

/-- Claim C6 counterexample: word extraction does not retain apostrophes
inside tokens, and punctuation other than space does not act as a
separator: `re.sub(r'[^\w ]+', '', ...)` deletes those characters
outright, so `DON'T GO` tokenizes as `DONT`, `GO` (the apostrophe is
gone), and `AB,CD` tokenizes as the single merged token `ABCD` rather
than two words. -/
theorem claim_C6_counterexample :
    extract_words cipherDont = ["DONT".data, "GO".data] ∧
    extract_words cipherDont ≠ [['D', 'O', 'N', apoChar, 'T'], "GO".data] ∧
    extract_words ("AB,CD".data) = ["ABCD".data] :=
  ⟨by decide, by decide, by decide⟩

/-- Claim C6 as amended: `solve` uppercases the ciphertext, deletes every
character that is neither a word character (letter, digit, underscore)
nor a space — apostrophes and punctuation are removed outright, merging
tokens they separated — and splits on the surviving spaces; every
extracted token is nonempty and consists of uppercase letters, digits
and underscores only, never apostrophes or spaces. -/
theorem claim_C6_amended (s : List Char) :
    ∀ w ∈ extract_words s, w ≠ [] ∧ ∀ ch ∈ w,
      (ch.isUpper = true ∨ ch.isDigit = true ∨ ch = '_') ∧
      ch ≠ apoChar ∧ ch ≠ ' ' := by
  intro w hw
  have h := extract_words_tokens s w hw
  refine ⟨h.1, ?_⟩
  intro ch hch
  have h2 := h.2 ch hch
  obtain ⟨⟨hwc, hlow⟩, hsp⟩ := h2
  refine ⟨?_, ?_, hsp⟩
  · rw [isWordChar] at hwc
    rcases Bool.or_eq_true _ _ ▸ hwc with h1 | h1
    · rw [Char.isAlphanum] at h1
      rcases Bool.or_eq_true _ _ ▸ h1 with h2 | h2
      · rw [Char.isAlpha] at h2
        rcases Bool.or_eq_true _ _ ▸ h2 with h3 | h3
        · exact Or.inl h3
        · rw [hlow] at h3
          cases h3
      · exact Or.inr (Or.inl h2)
    · exact Or.inr (Or.inr (beq_iff_eq.1 h1))
  · intro hap
    rw [hap, isWordChar_not_apo] at hwc
    cases hwc

/-- Claim C6 witness: the amended token shape at a concrete input. -/
theorem claim_C6_witness :
    "DONT".data ∈ extract_words cipherDont ∧
    ("DONT".data ≠ [] ∧ ∀ ch ∈ "DONT".data,
      (ch.isUpper = true ∨ ch.isDigit = true ∨ ch = '_') ∧
      ch ≠ apoChar ∧ ch ≠ ' ') :=
  ⟨by decide, claim_C6_amended cipherDont "DONT".data (by decide)⟩

/-- Claim C2 counterexample: `find_candidates` does not always return a
filtered bucket — when a bucket word is longer than the probe (possible
because patterns do not encode length, see the C5 counterexample), the
filter loop indexes the probe out of range and Python raises an
IndexError, modelled here by `Except.error`. -/
theorem claim_C2_counterexample :
    find_candidatesE (buildDict ["abcdefghijba".data]) "ABCDEFGHIJK".data =
      Except.error () := by
  decide

/-- Claim C2 as amended: provided every word of the probe's pattern
bucket has the probe's length (the guarantee the claim assumed, true
whenever all words involved have at most 10 distinct characters),
`find_candidates` returns exactly the words `w` of the bucket such that
at every position, if the probe character is lowercase or an apostrophe,
or the corresponding character of `w` is an apostrophe, the two
characters are equal — preserving the bucket's order. -/
theorem claim_C2_amended (L : List (List Char)) (probe : List Char)
    (hlen : ∀ w ∈ bucketOf (buildDict L) (hash_word probe), w.length = probe.length) :
    find_candidatesE (buildDict L) probe =
      .ok ((bucketOf (buildDict L) (hash_word probe)).filter
        (fun w => decide (∀ pc ∈ probe.zip w,
          (pc.1.isLower = true ∨ pc.1 = apoChar ∨ pc.2 = apoChar) → pc.1 = pc.2))) := by
  have h1 : find_candidatesE (buildDict L) probe =
      .ok (find_candidates (buildDict L) probe) := by
    apply find_candidatesE_ok
    intro w hw
    rw [hlen w hw]
  rw [h1, find_candidates]
  have h2 : ∀ w ∈ bucketOf (buildDict L) (hash_word probe),
      candOkT probe 0 w = decide (∀ pc ∈ probe.zip w,
        (pc.1.isLower = true ∨ pc.1 = apoChar ∨ pc.2 = apoChar) → pc.1 = pc.2) := by
    intro w hw
    have hiff := @candOkT_iff_zip probe w 0 (by rw [Nat.zero_add, hlen w hw])
    rw [List.drop_zero] at hiff
    by_cases hc : candOkT probe 0 w = true
    · rw [hc]
      exact (decide_eq_true (hiff.1 hc)).symm
    · rw [Bool.eq_false_iff.2 hc]
      symm
      rw [decide_eq_false_iff_not]
      intro hp
      exact hc (hiff.2 hp)
  rw [List.filter_congr h2]

/-- Claim C2 witness: the spec's own example, corpus `cat`, `bat` and
probe `cIF` — the bucket has the probe's length, and the filter keeps
`cat` but not `bat`. -/
theorem claim_C2_witness :
    (∀ w ∈ bucketOf (buildDict ["cat".data, "bat".data]) (hash_word "cIF".data),
      w.length = "cIF".data.length) ∧
    find_candidatesE (buildDict ["cat".data, "bat".data]) "cIF".data =
      .ok ((bucketOf (buildDict ["cat".data, "bat".data]) (hash_word "cIF".data)).filter
        (fun w => decide (∀ pc ∈ "cIF".data.zip w,
          (pc.1.isLower = true ∨ pc.1 = apoChar ∨ pc.2 = apoChar) → pc.1 = pc.2))) ∧
    find_candidates (buildDict ["cat".data, "bat".data]) "cIF".data = ["cat".data] :=
  ⟨by decide, claim_C2_amended ["cat".data, "bat".data] "cIF".data (by decide), by decide⟩

/-- Claim C3 counterexample: `solve` does not return the first
non-failure result of the recursive search.  On the empty word list
(the extraction of a ciphertext with no tokens) the tolerance-0 search
returns the empty translation unconditionally (line 138) — a
non-failure, since the docstring reserves `None` for failure — but
`solve`'s `if solution:` (line 104) treats the empty dict as falsy, so
the loop never breaks and `solve` ends in the failure state. -/
theorem claim_C3_counterexample :
    recursive_solve (buildDict []) [] [] 0 0 = some [] ∧
    solveWords (buildDict []) [] = none :=
  ⟨by decide, by decide⟩

/-- Claim C3 as amended: `solve` computes `max 3 (wordCount / 10)` with
integer division, tries tolerances `0, 1, ...` below that bound in
increasing order, and returns the first result that is a *nonempty*
translation (Python truthiness); a `None` or an empty dict both make the
loop continue, and the overall result is failure iff no tolerance in the
schedule produces a nonempty translation. -/
theorem claim_C3_amended (d : CorpusDict) (ws : List (List Char)) (dd : TransT) :
    solveWords d ws = some dd ↔
      ∃ t, t < max 3 (ws.length / 10) ∧ recursive_solve d ws [] 0 t = some dd ∧
        dd ≠ [] ∧ ∀ t2, t2 < t →
          (recursive_solve d ws [] 0 t2 = none ∨
            recursive_solve d ws [] 0 t2 = some []) := by
  rw [solveWords, tolGo_iff]
  constructor
  · rintro ⟨j, hj, h1, h2, h3⟩
    refine ⟨j, hj, by simpa using h1, h2, ?_⟩
    intro t2 ht2
    have := h3 t2 ht2
    simpa using this
  · rintro ⟨t, ht, h1, h2, h3⟩
    refine ⟨t, ht, by simpa using h1, h2, ?_⟩
    intro j2 hj2
    have := h3 j2 hj2
    simpa using this

/-- Claim C7 counterexample: ten corpus words encoded by the bijection
letter → uppercase letter, plus the out-of-corpus token `Z`.  `Z` sorts
last, and when the tolerance-0 search reaches it its candidate list is
empty (no one-letter corpus word), yet the search still succeeds at
tolerance 0, because skipping the final word hits the empty-remaining
success check before the tolerance check. -/
theorem claim_C7_counterexample :
    ws10a = sortLenDesc (extract_words cipher10a) ∧
    recursive_solve corpus10 ws10a [] 0 0 = some tr10a ∧
    find_candidates corpus10 (translateWord tr10a ['Z']) = [] :=
  ⟨rfl, by decide, by decide⟩

/-- Claim C7 as amended (on a representative instance): with the same
ten-word corpus and the zero-candidate token `ZZZZZ`, which sorts
*first*, the search fails at tolerance 0 — the skip leaves further words
pending, so the tolerance guard fires — and succeeds at every tolerance
at least 1 (via the tolerance-monotonicity lemma). -/
theorem claim_C7_amended :
    ws10b = sortLenDesc (extract_words cipher10b) ∧
    find_candidates corpus10 (translateWord [] "ZZZZZ".data) = [] ∧
    recursive_solve corpus10 ws10b [] 0 0 = none ∧
    ∀ t, 1 ≤ t → (recursive_solve corpus10 ws10b [] 0 t).isSome = true := by
  refine ⟨rfl, by decide, by decide, ?_⟩
  intro t ht
  obtain ⟨r2, hr2, _⟩ := @recSolve_mono corpus10 ws10b [] 0 1 t ht tr10a
    (by decide) (by decide)
  rw [hr2]
  rfl

/-- Claim C7 witness: the amended success conclusion at tolerance 2. -/
theorem claim_C7_witness :
    1 ≤ 2 ∧ (recursive_solve corpus10 ws10b [] 0 2).isSome = true :=
  ⟨by decide, claim_C7_amended.2.2.2 2 (by decide)⟩

/-- Claim C10: no call of the heap-level recursive search mutates any
dict that existed before the call — in particular the caller's
translation (the dict at `r`) is observed unchanged by the skip branch
and by every later sibling candidate branch; each candidate branch works
on its own freshly allocated copy. -/
theorem claim_C10 (d : CorpusDict) (ws : List (List Char)) (st : Store)
    (r k t : Nat) :
    Preserves st (recursive_solve_st d ws st r k t).1 ∧
    ∀ r2, r2 < st.length →
      readSt (recursive_solve_st d ws st r k t).1 r2 = readSt st r2 :=
  ⟨recSolveSt_preserves d ws st r k t,
   fun r2 hr2 => (recSolveSt_preserves d ws st r k t).2 r2 hr2⟩

/-- Claim C10 witness: a concrete one-object heap is untouched. -/
theorem claim_C10_witness :
    0 < ([[('A', 'x')]] : Store).length ∧
    readSt (recursive_solve_st (buildDict ["cat".data]) ["XYZ".data]
      [[('A', 'x')]] 0 0 0).1 0 = readSt [[('A', 'x')]] 0 :=
  ⟨by decide,
   (claim_C10 (buildDict ["cat".data]) ["XYZ".data] [[('A', 'x')]] 0 0 0).2 0 (by decide)⟩

/-- Claim C1 counterexample: a successful solve can return a
non-injective translation.  The corpus file `X`, `y` is taken as-is
(mixed case is passed through), and on ciphertext `A B A C D` the search
at tolerance 0 overwrites the existing binding of `A` while extending
with the candidate `y` — the extension loop checks conflicts only for
ciphertext letters not yet in the table — and `solve` returns a table
sending both `A` and `B` to `y`. -/
theorem claim_C1_counterexample :
    solve corpusXY ("A B A C D".data) = some [('A', 'y'), ('B', 'y'), ('C', 'X')] ∧
    ¬ InjT [('A', 'y'), ('B', 'y'), ('C', 'X')] :=
  ⟨by decide, by decide⟩

/-- Claim C1 as amended: when every corpus word consists of lowercase
letters and apostrophes and has at most 10 distinct characters, and
every ciphertext word has at most 10 distinct characters (extracted
words never contain lowercase letters or apostrophes), the translation
table is injective at every recursive call reached from the root of the
search, and every translation returned by a successful solve is
injective. -/
theorem claim_C1_amended (L : List (List Char))
    (hL : ∀ u ∈ L, corpusWordOk u ∧ distinctCount u ≤ 10) :
    (∀ (ws0 : List (List Char)) (t : Nat),
      (∀ u ∈ ws0, cipherWordOk u ∧ distinctCount u ≤ 10) →
      ∀ s2 : SState, Reaches (buildDict L) ⟨ws0, [], 0, t⟩ s2 → InjT s2.tr) ∧
    (∀ (s : List Char) (res : TransT),
      (∀ u ∈ extract_words s, distinctCount u ≤ 10) →
      solve (buildDict L) s = some res → InjT res) := by
  constructor
  · intro ws0 t hws s2 hr
    have h0 : (∀ u ∈ (⟨ws0, [], 0, t⟩ : SState).ws,
        cipherWordOk u ∧ distinctCount u ≤ 10) ∧ OkT (⟨ws0, [], 0, t⟩ : SState).tr :=
      ⟨hws, okT_nil⟩
    exact (reaches_ok hL hr h0).2.2.1
  · intro s res hdist hsol
    rw [solve, solveWords] at hsol
    rcases tolGo_some_exists _ _ _ hsol with ⟨t, ht⟩
    have hws : ∀ u ∈ sortLenDesc (extract_words s),
        cipherWordOk u ∧ distinctCount u ≤ 10 := by
      intro u hu
      have hmem : u ∈ extract_words s := mem_sortLenDesc.1 hu
      exact ⟨extract_words_cipherOk s u hmem, hdist u hmem⟩
    exact (recSolve_ok hL _ [] 0 t res hws okT_nil ht).2.1

/-- Claim C1 witness: the amended conclusion at a concrete corpus and
ciphertext. -/
theorem claim_C1_witness :
    (∀ u ∈ ["cat".data, "bat".data], corpusWordOk u ∧ distinctCount u ≤ 10) ∧
    InjT [('X', 'c'), ('Y', 'a'), ('Z', 't')] :=
  ⟨by decide,
   (claim_C1_amended ["cat".data, "bat".data] (by decide)).2 "XYZ".data
     [('X', 'c'), ('Y', 'a'), ('Z', 't')] (by decide) (by decide)⟩
